import Mathlib

/-!
Verification of the ScrapBindings sequence-matching engine.

The definitions below are a shallow embedding of the `Mousetrap` class of
`src/unnamed/part_002` (the current revision of `mod.ts`): the binding table,
the match engine state, `bind` / `unbind` / `reset`, `handleKeydown` and the
flush timer.  JavaScript strings are embedded as lists of characters,
`Map` and `Set` as association lists and lists kept in insertion order, and
user commands as identifiers carrying a flag saying whether calling them
throws.  The external key-notation library (`deps/vim-like-key-notation.ts`,
not part of this repository) is abstracted as a parameter `norm`.
-/

namespace ScrapBindings

/-- A canonical key sequence: a JavaScript string embedded as a list of
characters. -/
abbrev KeySeq := List Char

/-- A user-supplied command `(e: KeyboardEvent) => void`, modelled by an
identifier together with a flag recording whether invoking it throws. -/
structure Command where
  id : Nat
  throws : Bool
deriving DecidableEq

/-- The part of a DOM `KeyboardEvent` the engine reads: the trusted flag,
the IME-composition flag, and the result of `stringify(e)` (the canonical
key token; `[]` embeds the falsy empty string, meaning "not representable,
ignore this input"). -/
structure KeyboardEvent where
  isTrusted : Bool
  isComposing : Bool
  vimKey : KeySeq
deriving DecidableEq

/-- The callback scheduled by `setTimeout` in `handleKeydown`:
either the captured `prevBestMatchCommand` closure (which runs the command
with the event captured at closure-creation time and then resets), or
`backToInitial`. -/
inductive TimerAction where
  | commit (cmd : Command) (ev : KeyboardEvent)
  | toInitial
deriving DecidableEq

/-- A live pending timer: the scheduled action and the delay it was armed
with. -/
structure PendingTimer where
  action : TimerAction
  delay : Nat
deriving DecidableEq

/-- The mutable state of one `Mousetrap` instance
(`src/unnamed/part_002`, fields at lines 166-186). -/
structure EngineState where
  bindings : List (KeySeq × Command)
  sequence : KeySeq
  prevBestMatchCommand : Option (Command × KeyboardEvent)
  filtered : List KeySeq
  timer : Option PendingTimer
  flushInterval : Nat
deriving DecidableEq

/-- One observable timer operation: `clearTimeout` or `setTimeout`. -/
inductive TimerOp where
  | cancel
  | arm
deriving DecidableEq

/-- The observable effects of one engine step: the commands invoked (with
the `KeyboardEvent` each one received), the command errors caught and
logged, whether `preventDefault` / `stopPropagation` were called, and the
timer operations in program order. -/
structure Effects where
  invoked : List (Command × KeyboardEvent)
  errorsLogged : List Nat
  prevented : Bool
  stopped : Bool
  timerOps : List TimerOp
deriving DecidableEq

/-- No observable effect. -/
def emptyEffects : Effects :=
  { invoked := []
    errorsLogged := []
    prevented := false
    stopped := false
    timerOps := [] }

/-- Sequential composition of effects. -/
def Effects.append (a b : Effects) : Effects :=
  { invoked := a.invoked ++ b.invoked
    errorsLogged := a.errorsLogged ++ b.errorsLogged
    prevented := a.prevented || b.prevented
    stopped := a.stopped || b.stopped
    timerOps := a.timerOps ++ b.timerOps }

/-- `Map.get`: first (and, for a well-formed map, only) entry with the given
key. -/
def lookupAssoc {α β : Type} [DecidableEq α] : List (α × β) → α → Option β
  | [], _ => none
  | (k', v) :: rest, k => if k' = k then some v else lookupAssoc rest k

/-- `Map.set`: overwrite in place, keeping insertion order, else append. -/
def setAssoc {α β : Type} [DecidableEq α] : List (α × β) → α → β → List (α × β)
  | [], k, v => [(k, v)]
  | (k', v') :: rest, k, v =>
    if k' = k then (k, v) :: rest else (k', v') :: setAssoc rest k v

/-- `Map.delete`. -/
def delAssoc {α β : Type} [DecidableEq α] : List (α × β) → α → List (α × β)
  | [], _ => []
  | (k', v) :: rest, k =>
    if k' = k then delAssoc rest k else (k', v) :: delAssoc rest k

/-- `Set.add`: append if absent. -/
def addSet {α : Type} [DecidableEq α] (l : List α) (x : α) : List α :=
  if x ∈ l then l else l ++ [x]

/-- `Set.delete`. -/
def delSet {α : Type} [DecidableEq α] : List α → α → List α
  | [], _ => []
  | y :: rest, x => if y = x then delSet rest x else y :: delSet rest x

/-- The key set of the binding table, in insertion order
(`this.bindings.keys()`). -/
def keysOf (B : List (KeySeq × Command)) : List KeySeq :=
  B.map (fun p => p.1)

/-- JavaScript `k.startsWith(p)`: does `k` begin with `p`? -/
def startsWithKey : KeySeq → KeySeq → Bool
  | _, [] => true
  | [], _ :: _ => false
  | c :: k, d :: p => c == d && startsWithKey k p

/-- Concatenation of a list of key tokens into one key sequence. -/
def joinAll : List KeySeq → KeySeq
  | [] => []
  | t :: ts => t ++ joinAll ts

/-- `backToInitial` (`src/unnamed/part_002`, lines 188-194): cancel the
timer, clear the buffer and the holder, reseed the candidate set from the
full table. -/
def backToInitial (s : EngineState) : EngineState :=
  { s with
    timer := none
    sequence := []
    prevBestMatchCommand := none
    filtered := keysOf s.bindings }

/-- `emitChange` (`src/unnamed/part_002`, lines 265-279): when the table has
become empty, reset to the initial state (and stop listening); otherwise
(re-)attach the listener, leaving the matching state untouched. -/
def emitChange (s : EngineState) : EngineState :=
  if s.bindings.isEmpty then backToInitial s else s

/-- The constructor (`src/unnamed/part_002`, lines 82-88):
`flushInterval = options?.flushInterval ?? 1000`. -/
def mkMousetrap (flushInterval : Option Nat) : EngineState :=
  { bindings := []
    sequence := []
    prevBestMatchCommand := none
    filtered := []
    timer := none
    flushInterval := flushInterval.getD 1000 }

/-- The error taxonomy of `normalizeSequence`
(`src/unnamed/part_002`, lines 29-38). -/
inductive BindingError where
  | invalidSequence
  | invalidKey
  | disallowedModifier
  | duplicateModifier
  | unknownModifier
deriving DecidableEq

/-- The `Result` type of `normalizeSequence`
(`src/unnamed/part_002`, lines 287-306). -/
inductive NormResult where
  | ok (value : KeySeq)
  | err (errors : List BindingError)
deriving DecidableEq

/-- A normalizer: the engine operations are parameterized by it, since
`parseSequence` / `normalize` live in the external key-notation library
(`deps/vim-like-key-notation.ts`), outside this repository. -/
abbrev Normalizer := KeySeq → NormResult

/-- Modelled from the spec: a concrete stand-in for the external
`normalizeSequence` (the notation library itself is not in `src/`), used
only to instantiate theorems at concrete inputs: the sequence `"!"` fails
with a parse error, everything else is already canonical. -/
def normToy : Normalizer := fun q =>
  if q = ['!'] then NormResult.err [BindingError.invalidSequence]
  else NormResult.ok q

/-- The loop body of `Mousetrap.bind` (`src/unnamed/part_002`, lines
114-136): each entry is normalized independently; failures are recorded in
the error map and skipped; successes are inserted into the table
(overwriting) and added to the candidate set when they extend the current
buffer. -/
def bindLoop (norm : Normalizer) :
    EngineState → List (KeySeq × List BindingError) →
    List (KeySeq × Command) → EngineState × List (KeySeq × List BindingError)
  | s, acc, [] => (s, acc)
  | s, acc, (q, cmd) :: rest =>
    match norm q with
    | NormResult.err es => bindLoop norm s (setAssoc acc q es) rest
    | NormResult.ok n =>
      bindLoop norm
        { s with
          bindings := setAssoc s.bindings n cmd
          filtered :=
            if startsWithKey n s.sequence then addSet s.filtered n
            else s.filtered }
        acc rest

/-- `Mousetrap.bind` (`src/unnamed/part_002`, lines 107-141): run the loop
over the batch, then `emitChange`, returning the per-sequence error map. -/
def bindBatch (norm : Normalizer) (s : EngineState)
    (kbs : List (KeySeq × Command)) :
    EngineState × List (KeySeq × List BindingError) :=
  let r := bindLoop norm s [] kbs
  (emitChange r.1, r.2)

/-- The loop of `Mousetrap.unbind` (`src/unnamed/part_002`, lines 147-156):
normalize each argument, silently skip failures, delete successes from the
table and the candidate set. -/
def unbindLoop (norm : Normalizer) : EngineState → List KeySeq → EngineState
  | s, [] => s
  | s, q :: rest =>
    match norm q with
    | NormResult.err _ => unbindLoop norm s rest
    | NormResult.ok n =>
      unbindLoop norm
        { s with
          bindings := delAssoc s.bindings n
          filtered := delSet s.filtered n } rest

/-- `Mousetrap.unbind`: the loop followed by `emitChange`; returns no error
report (the TypeScript return type is `void`). -/
def unbindBatch (norm : Normalizer) (s : EngineState) (seqs : List KeySeq) :
    EngineState :=
  emitChange (unbindLoop norm s seqs)

/-- `Mousetrap.reset` (`src/unnamed/part_002`, lines 161-164): clear the
table, then `emitChange`. -/
def resetTable (s : EngineState) : EngineState :=
  emitChange { s with bindings := [] }

/-- The buffer after appending this event's token
(`this.currentSequence += vimKey`). -/
def turnSeq (s : EngineState) (e : KeyboardEvent) : KeySeq :=
  s.sequence ++ e.vimKey

/-- The filtering loop over `this.filtered` (`src/unnamed/part_002`, lines
208-226): a candidate survives iff it still starts with the new buffer and,
when it equals the buffer exactly, the table still has a command for it. -/
def filterPass (B : List (KeySeq × Command)) (seq : KeySeq)
    (filtered : List KeySeq) : List KeySeq :=
  filtered.filter (fun k =>
    startsWithKey k seq && (decide (k ≠ seq) || (lookupAssoc B k).isSome))

/-- This turn's exact match: the command bound to a candidate equal to the
new buffer, if that candidate was in the set when the loop ran. -/
def exactMatch (B : List (KeySeq × Command)) (seq : KeySeq)
    (filtered : List KeySeq) : Option Command :=
  if seq ∈ filtered then lookupAssoc B seq else none

/-- The surviving candidate set of this turn. -/
def turnSurvivors (s : EngineState) (e : KeyboardEvent) : List KeySeq :=
  filterPass s.bindings (turnSeq s e) s.filtered

/-- This turn's exact match (`bestMatchCommand`). -/
def turnBest (s : EngineState) (e : KeyboardEvent) : Option Command :=
  exactMatch s.bindings (turnSeq s e) s.filtered

/-- The holder after this turn:
`if (size > 0) this.prevBestMatchCommand = bestMatchCommand` — when at
least one candidate survives, the holder is overwritten by this turn's
exact match (pairing the command with this turn's event, as the closure
captures it); otherwise the previous holder is kept. -/
def turnHeld (s : EngineState) (e : KeyboardEvent) :
    Option (Command × KeyboardEvent) :=
  if 0 < (turnSurvivors s e).length then
    (turnBest s e).map (fun c => (c, e))
  else s.prevBestMatchCommand

/-- The engine state after step 2-4 of a turn (buffer appended, candidate
set filtered, holder updated), before the dispatch decision. -/
def stepState (s : EngineState) (e : KeyboardEvent) : EngineState :=
  { s with
    timer := none
    sequence := turnSeq s e
    filtered := turnSurvivors s e
    prevBestMatchCommand := turnHeld s e }

/-- The `setTimeout` callback: `this.prevBestMatchCommand ?? this.backToInitial`. -/
def armAction : Option (Command × KeyboardEvent) → TimerAction
  | some (c, ev) => TimerAction.commit c ev
  | none => TimerAction.toInitial

/-- Arming the pending timer (`src/unnamed/part_002`, lines 257-262). -/
def armState (s : EngineState) : EngineState :=
  { s with
    timer :=
      some { action := armAction s.prevBestMatchCommand
             delay := s.flushInterval } }

/-- Effects of the branch that cancels the timer and calls `backToInitial`
(the composition branch and the no-candidates branch): two `clearTimeout`s. -/
def cancelCancelEff : Effects :=
  { invoked := []
    errorsLogged := []
    prevented := false
    stopped := false
    timerOps := [TimerOp.cancel, TimerOp.cancel] }

/-- Effects of running the held closure (`src/unnamed/part_002`, lines
216-225): the command runs with its captured event inside try/catch, a
thrown error is logged, and the `finally` block calls `backToInitial`
(whose `clearTimeout` is the second cancel; the first is the one at the top
of `handleKeydown`). -/
def invokeEff (cmd : Command) (ev : KeyboardEvent) : Effects :=
  { invoked := [(cmd, ev)]
    errorsLogged := if cmd.throws then [cmd.id] else []
    prevented := false
    stopped := false
    timerOps := [TimerOp.cancel, TimerOp.cancel] }

/-- Effects of the ambiguous branch: `preventDefault`, `stopPropagation`,
and a fresh `setTimeout` after the top-of-handler `clearTimeout`. -/
def armEff : Effects :=
  { invoked := []
    errorsLogged := []
    prevented := true
    stopped := true
    timerOps := [TimerOp.cancel, TimerOp.arm] }

/-- `Mousetrap.handleKeydown` (`src/unnamed/part_002`, lines 196-263), with
an explicit fuel bounding the self-call depth (the source recursion
`this.handleKeydown(e)`); `handleKeydown` below runs it with fuel 2, which
the development proves sufficient for every state. -/
def handleKeydownFuel : Nat → EngineState → KeyboardEvent → EngineState × Effects
  | 0, s, _ => (s, emptyEffects)
  | fuel + 1, s, e =>
    if e.isTrusted = false then (s, emptyEffects)
    else if e.vimKey = [] then (s, emptyEffects)
    else if e.isComposing then (backToInitial s, cancelCancelEff)
    else
      let s1 : EngineState := stepState s e
      match turnHeld s e with
      | some (cmd, ev) =>
        if (turnSurvivors s e).length < 2 then
          if (turnSurvivors s e).length = 0 then
            let r := handleKeydownFuel fuel (backToInitial s1) e
            (r.1, Effects.append (invokeEff cmd ev) r.2)
          else (backToInitial s1, invokeEff cmd ev)
        else (armState s1, armEff)
      | none =>
        if (turnSurvivors s e).length = 0 then (backToInitial s1, cancelCancelEff)
        else (armState s1, armEff)

/-- One keydown, with enough fuel (proved sufficient below). -/
def handleKeydown (s : EngineState) (e : KeyboardEvent) :
    EngineState × Effects :=
  handleKeydownFuel 2 s e

/-- Effects of timer expiry through the captured best-match closure: the
command runs with its captured event inside try/catch (a thrown error is
logged), and the `finally` block's `backToInitial` issues one
`clearTimeout`. -/
def commitFireEff (cmd : Command) (ev : KeyboardEvent) : Effects :=
  { invoked := [(cmd, ev)]
    errorsLogged := if cmd.throws then [cmd.id] else []
    prevented := false
    stopped := false
    timerOps := [TimerOp.cancel] }

/-- Effects of timer expiry through `backToInitial`: one `clearTimeout`. -/
def resetFireEff : Effects :=
  { invoked := []
    errorsLogged := []
    prevented := false
    stopped := false
    timerOps := [TimerOp.cancel] }

/-- Expiry of the pending timer: run the scheduled callback
(`src/unnamed/part_002`, lines 257-262): the captured best-match closure —
invoke, catch and log, then `backToInitial` — or plain `backToInitial`. -/
def fireTimer (s : EngineState) : EngineState × Effects :=
  match s.timer with
  | none => (s, emptyEffects)
  | some t =>
    match t.action with
    | TimerAction.commit cmd ev =>
      (backToInitial { s with timer := none }, commitFireEff cmd ev)
    | TimerAction.toInitial =>
      (backToInitial { s with timer := none }, resetFireEff)

/-- Feed a list of trusted key events one after another, collecting
effects. -/
def feedTokens (s : EngineState) : List KeyboardEvent → EngineState × Effects
  | [] => (s, emptyEffects)
  | e :: rest =>
    let r := handleKeydown s e
    let r2 := feedTokens r.1 rest
    (r2.1, Effects.append r.2 r2.2)

/-- A trusted, non-composing key event delivering one token. -/
def mkEvent (t : KeySeq) : KeyboardEvent :=
  { isTrusted := true, isComposing := false, vimKey := t }

/-- The command bound to `"d"` in the concrete scenarios. -/
def cmdD : Command := { id := 0, throws := false }

/-- The command bound to `"dd"` in the concrete scenarios. -/
def cmdDD : Command := { id := 1, throws := false }

/-- An auxiliary command for the concrete scenarios. -/
def cmdX : Command := { id := 2, throws := false }

/-- The engine after `bind({d: cmdD, dd: cmdDD})` on a fresh instance. -/
def sBoundDDd : EngineState :=
  (bindBatch normToy (mkMousetrap none)
    [(['d'], cmdD), (['d', 'd'], cmdDD)]).1

/-- The event delivering the token `"d"`. -/
def evD : KeyboardEvent := mkEvent ['d']

/-- The event delivering the token `"a"`. -/
def evA : KeyboardEvent := mkEvent ['a']

/-- The engine of `sBoundDDd` after one `"d"`: buffer `"d"`, candidates
`{d, dd}`, holder `d`'s command, timer armed. -/
def sAfterD : EngineState := (handleKeydown sBoundDDd evD).1

/-- An untrusted key event. -/
def evUntrusted : KeyboardEvent :=
  { isTrusted := false, isComposing := false, vimKey := ['x'] }

/-- A trusted event flagged as part of an IME composition. -/
def evComposing : KeyboardEvent :=
  { isTrusted := true, isComposing := true, vimKey := ['x'] }

/-- An idle engine whose table already binds `"g"` to `cmdX`, used to
observe that `bind` overwrites the existing command for a canonical
sequence. -/
def sPreBoundG : EngineState :=
  { bindings := [(['g'], cmdX)]
    sequence := []
    prevBestMatchCommand := none
    filtered := [['g']]
    timer := none
    flushInterval := 1000 }

/-- Replace a command by a non-throwing one with the same identity. -/
def Command.calm (c : Command) : Command :=
  { id := c.id, throws := false }

/-- `Command.calm` on the command of a holder entry. -/
def calmPair (p : Command × KeyboardEvent) : Command × KeyboardEvent :=
  (p.1.calm, p.2)

/-- `Command.calm` over a binding table. -/
def calmBindings (B : List (KeySeq × Command)) : List (KeySeq × Command) :=
  B.map (fun p => (p.1, p.2.calm))

/-- `Command.calm` over a timer action. -/
def calmAction : TimerAction → TimerAction
  | TimerAction.commit c ev => TimerAction.commit c.calm ev
  | TimerAction.toInitial => TimerAction.toInitial

/-- `Command.calm` over a pending timer. -/
def calmTimer (t : PendingTimer) : PendingTimer :=
  { action := calmAction t.action, delay := t.delay }

/-- Replace every command reachable from the state by its non-throwing
twin: same bindings, buffer, candidates and timer shape, but no command
throws. -/
def calmState (s : EngineState) : EngineState :=
  { bindings := calmBindings s.bindings
    sequence := s.sequence
    prevBestMatchCommand := s.prevBestMatchCommand.map calmPair
    filtered := s.filtered
    timer := s.timer.map calmTimer
    flushInterval := s.flushInterval }

/-- The effects of the same run with every command calmed: same
invocations (with calmed commands), same flags and timer operations, and
no error ever logged. -/
def calmEffects (eff : Effects) : Effects :=
  { invoked := eff.invoked.map calmPair
    errorsLogged := []
    prevented := eff.prevented
    stopped := eff.stopped
    timerOps := eff.timerOps }

/-! ### Basic lemmas about the embedded map, set and string operations -/

theorem Effects.append_empty (a : Effects) : Effects.append a emptyEffects = a := by
  simp [Effects.append, emptyEffects]

theorem lookup_isSome_iff_mem {B : List (KeySeq × Command)} {k : KeySeq} :
    (lookupAssoc B k).isSome = true ↔ k ∈ keysOf B := by
  induction B with
  | nil => simp [lookupAssoc, keysOf]
  | cons p rest ih =>
    obtain ⟨k', v⟩ := p
    by_cases h : k' = k
    · constructor
      · intro _
        show k ∈ k' :: keysOf rest
        rw [h]
        exact List.mem_cons_self _ _
      · intro _
        show (if k' = k then some v else lookupAssoc rest k).isSome = true
        rw [if_pos h]
        rfl
    · simp only [lookupAssoc, if_neg h, keysOf, List.map_cons, List.mem_cons]
      simp only [keysOf] at ih
      rw [ih]
      exact ⟨fun hm => Or.inr hm, fun hm => hm.resolve_left (fun he => h he.symm)⟩

theorem mem_keys_of_lookup {B : List (KeySeq × Command)} {k : KeySeq}
    {c : Command} (h : lookupAssoc B k = some c) : k ∈ keysOf B := by
  have : (lookupAssoc B k).isSome = true := by simp [h]
  exact lookup_isSome_iff_mem.mp this

theorem startsWithKey_append_left (p r : KeySeq) :
    startsWithKey (p ++ r) p = true := by
  induction p with
  | nil => simp [startsWithKey]
  | cons c p ih => simp [startsWithKey, ih]

theorem startsWithKey_refl (k : KeySeq) : startsWithKey k k = true := by
  have := startsWithKey_append_left k []
  simpa using this

theorem startsWithKey_of_append {k : KeySeq} (p r : KeySeq)
    (h : startsWithKey k (p ++ r) = true) : startsWithKey k p = true := by
  induction p generalizing k with
  | nil => simp [startsWithKey]
  | cons c p ih =>
    cases k with
    | nil => simp [startsWithKey] at h
    | cons d k =>
      simp [startsWithKey] at h ⊢
      exact ⟨h.1, ih h.2⟩

theorem joinAll_ne_nil {ts : List KeySeq} (h : ts ≠ [])
    (htok : ∀ t ∈ ts, t ≠ []) : joinAll ts ≠ [] := by
  cases ts with
  | nil => exact absurd rfl h
  | cons t ts =>
    have ht : t ≠ [] := htok t (List.mem_cons_self _ _)
    cases t with
    | nil => exact absurd rfl ht
    | cons c t => simp [joinAll]

theorem append_ne_self {p r : KeySeq} (h : r ≠ []) : p ++ r ≠ p := by
  intro hc
  have := congrArg List.length hc
  simp [List.length_append] at this
  exact h this

/-! ### Branch characterizations of `handleKeydown` -/

theorem hk_untrusted (fuel : Nat) (s : EngineState) (e : KeyboardEvent)
    (h : e.isTrusted = false) :
    handleKeydownFuel (fuel + 1) s e = (s, emptyEffects) := by
  simp [handleKeydownFuel, h]

theorem hk_emptyKey (fuel : Nat) (s : EngineState) (e : KeyboardEvent)
    (h : e.vimKey = []) :
    handleKeydownFuel (fuel + 1) s e = (s, emptyEffects) := by
  by_cases ht : e.isTrusted = false
  · simp [handleKeydownFuel, ht]
  · simp [handleKeydownFuel, ht, h]

theorem hk_composing (fuel : Nat) (s : EngineState) (e : KeyboardEvent)
    (h1 : e.isTrusted = true) (h2 : e.vimKey ≠ []) (h3 : e.isComposing = true) :
    handleKeydownFuel (fuel + 1) s e = (backToInitial s, cancelCancelEff) := by
  simp [handleKeydownFuel, h1, h2, h3]

theorem hk_run_one (fuel : Nat) (s : EngineState) (e : KeyboardEvent)
    (cmd : Command) (ev : KeyboardEvent)
    (h1 : e.isTrusted = true) (h2 : e.vimKey ≠ []) (h3 : e.isComposing = false)
    (hh : turnHeld s e = some (cmd, ev))
    (hs : (turnSurvivors s e).length = 1) :
    handleKeydownFuel (fuel + 1) s e = (backToInitial s, invokeEff cmd ev) := by
  have : backToInitial (stepState s e) = backToInitial s := rfl
  simp [handleKeydownFuel, h1, h2, h3, hh, hs, this]

theorem hk_replay (fuel : Nat) (s : EngineState) (e : KeyboardEvent)
    (cmd : Command) (ev : KeyboardEvent)
    (h1 : e.isTrusted = true) (h2 : e.vimKey ≠ []) (h3 : e.isComposing = false)
    (hh : turnHeld s e = some (cmd, ev))
    (hs : (turnSurvivors s e).length = 0) :
    handleKeydownFuel (fuel + 1) s e =
      ((handleKeydownFuel fuel (backToInitial s) e).1,
       Effects.append (invokeEff cmd ev)
         (handleKeydownFuel fuel (backToInitial s) e).2) := by
  have : backToInitial (stepState s e) = backToInitial s := rfl
  simp [handleKeydownFuel, h1, h2, h3, hh, hs, this]

theorem hk_idle0 (fuel : Nat) (s : EngineState) (e : KeyboardEvent)
    (h1 : e.isTrusted = true) (h2 : e.vimKey ≠ []) (h3 : e.isComposing = false)
    (hh : turnHeld s e = none)
    (hs : (turnSurvivors s e).length = 0) :
    handleKeydownFuel (fuel + 1) s e = (backToInitial s, cancelCancelEff) := by
  have : backToInitial (stepState s e) = backToInitial s := rfl
  simp [handleKeydownFuel, h1, h2, h3, hh, hs, this]

theorem hk_arm_some (fuel : Nat) (s : EngineState) (e : KeyboardEvent)
    (cmd : Command) (ev : KeyboardEvent)
    (h1 : e.isTrusted = true) (h2 : e.vimKey ≠ []) (h3 : e.isComposing = false)
    (hh : turnHeld s e = some (cmd, ev))
    (hs : 2 ≤ (turnSurvivors s e).length) :
    handleKeydownFuel (fuel + 1) s e = (armState (stepState s e), armEff) := by
  have hlt : ¬((turnSurvivors s e).length < 2) := by omega
  simp [handleKeydownFuel, h1, h2, h3, hh, hlt]

theorem hk_arm_none (fuel : Nat) (s : EngineState) (e : KeyboardEvent)
    (h1 : e.isTrusted = true) (h2 : e.vimKey ≠ []) (h3 : e.isComposing = false)
    (hh : turnHeld s e = none)
    (hs : (turnSurvivors s e).length ≠ 0) :
    handleKeydownFuel (fuel + 1) s e = (armState (stepState s e), armEff) := by
  simp [handleKeydownFuel, h1, h2, h3, hh, hs]

/-! ### The replay happens at most once per physical token -/

theorem hk_none_fuel (fuel : Nat) (s : EngineState) (e : KeyboardEvent)
    (h : s.prevBestMatchCommand = none) :
    handleKeydownFuel (fuel + 1) s e = handleKeydownFuel 1 s e := by
  by_cases h1 : e.isTrusted = false
  · rw [hk_untrusted fuel s e h1, hk_untrusted 0 s e h1]
  · have h1' : e.isTrusted = true := by revert h1; cases e.isTrusted <;> simp
    by_cases h2 : e.vimKey = []
    · rw [hk_emptyKey fuel s e h2, hk_emptyKey 0 s e h2]
    · by_cases h3 : e.isComposing = true
      · rw [hk_composing fuel s e h1' h2 h3, hk_composing 0 s e h1' h2 h3]
      · have h3' : e.isComposing = false := by
          revert h3; cases e.isComposing <;> simp
        cases hH : turnHeld s e with
        | none =>
          by_cases hs : (turnSurvivors s e).length = 0
          · rw [hk_idle0 fuel s e h1' h2 h3' hH hs,
              hk_idle0 0 s e h1' h2 h3' hH hs]
          · rw [hk_arm_none fuel s e h1' h2 h3' hH hs,
              hk_arm_none 0 s e h1' h2 h3' hH hs]
        | some p =>
          obtain ⟨cmd, ev⟩ := p
          have hs0 : (turnSurvivors s e).length ≠ 0 := by
            intro hs
            have hc := hH
            rw [turnHeld, hs] at hc
            simp [h] at hc
          rcases Nat.lt_or_ge (turnSurvivors s e).length 2 with hlt | hge
          · have hs1 : (turnSurvivors s e).length = 1 := by omega
            rw [hk_run_one fuel s e cmd ev h1' h2 h3' hH hs1,
              hk_run_one 0 s e cmd ev h1' h2 h3' hH hs1]
          · rw [hk_arm_some fuel s e cmd ev h1' h2 h3' hH hge,
              hk_arm_some 0 s e cmd ev h1' h2 h3' hH hge]

theorem hk_fuel_stable (n : Nat) (s : EngineState) (e : KeyboardEvent) :
    handleKeydownFuel (n + 2) s e = handleKeydownFuel 2 s e := by
  by_cases h1 : e.isTrusted = false
  · rw [hk_untrusted (n + 1) s e h1, hk_untrusted 1 s e h1]
  · have h1' : e.isTrusted = true := by revert h1; cases e.isTrusted <;> simp
    by_cases h2 : e.vimKey = []
    · rw [hk_emptyKey (n + 1) s e h2, hk_emptyKey 1 s e h2]
    · by_cases h3 : e.isComposing = true
      · rw [hk_composing (n + 1) s e h1' h2 h3, hk_composing 1 s e h1' h2 h3]
      · have h3' : e.isComposing = false := by
          revert h3; cases e.isComposing <;> simp
        cases hH : turnHeld s e with
        | none =>
          by_cases hs : (turnSurvivors s e).length = 0
          · rw [hk_idle0 (n + 1) s e h1' h2 h3' hH hs,
              hk_idle0 1 s e h1' h2 h3' hH hs]
          · rw [hk_arm_none (n + 1) s e h1' h2 h3' hH hs,
              hk_arm_none 1 s e h1' h2 h3' hH hs]
        | some p =>
          obtain ⟨cmd, ev⟩ := p
          by_cases hs : (turnSurvivors s e).length = 0
          · rw [hk_replay (n + 1) s e cmd ev h1' h2 h3' hH hs,
              hk_replay 1 s e cmd ev h1' h2 h3' hH hs,
              hk_none_fuel n (backToInitial s) e rfl]
          · rcases Nat.lt_or_ge (turnSurvivors s e).length 2 with hlt | hge
            · have hs1 : (turnSurvivors s e).length = 1 := by omega
              rw [hk_run_one (n + 1) s e cmd ev h1' h2 h3' hH hs1,
                hk_run_one 1 s e cmd ev h1' h2 h3' hH hs1]
            · rw [hk_arm_some (n + 1) s e cmd ev h1' h2 h3' hH hge,
                hk_arm_some 1 s e cmd ev h1' h2 h3' hH hge]

/-- C1: prefix-shadow replay.  If a processable key token leaves the
Best-Match Holder non-empty while the candidate count after filtering is
exactly 0, then `handleKeydown` equals: invoke the held command (with its
captured event), reset to the initial state, and re-run the very same
token-processing function `handleKeydown` with the same token against the
freshly-reset state, prepending the invocation to the replayed effects. -/
theorem prefixShadowReplay (s : EngineState) (e : KeyboardEvent)
    (cmd : Command) (ev : KeyboardEvent)
    (h1 : e.isTrusted = true) (h2 : e.vimKey ≠ []) (h3 : e.isComposing = false)
    (hh : s.prevBestMatchCommand = some (cmd, ev))
    (hs : (turnSurvivors s e).length = 0) :
    handleKeydown s e =
      ((handleKeydown (backToInitial s) e).1,
       Effects.append (invokeEff cmd ev)
         (handleKeydown (backToInitial s) e).2) := by
  have hH : turnHeld s e = some (cmd, ev) := by
    rw [turnHeld, hs]
    simpa using hh
  have hstep : handleKeydownFuel 2 s e =
      ((handleKeydownFuel 1 (backToInitial s) e).1,
       Effects.append (invokeEff cmd ev)
         (handleKeydownFuel 1 (backToInitial s) e).2) :=
    hk_replay 1 s e cmd ev h1 h2 h3 hH hs
  have hfuel : handleKeydownFuel 2 (backToInitial s) e =
      handleKeydownFuel 1 (backToInitial s) e :=
    hk_none_fuel 1 (backToInitial s) e rfl
  show handleKeydownFuel 2 s e =
      ((handleKeydownFuel 2 (backToInitial s) e).1,
       Effects.append (invokeEff cmd ev)
         (handleKeydownFuel 2 (backToInitial s) e).2)
  rw [hfuel]
  exact hstep

/-- Witness for C1, on the concrete scenario of the claim: with exactly
`"d"` and `"dd"` bound and `"a"` unbound, after feeding `"d"` the state
`sAfterD` holds `"d"`'s command and the token `"a"` filters the candidates
to none; the theorem applies, and feeding `"d"` then `"a"` from the bound
state invokes `"d"`'s command exactly once (with the `"d"` event the
closure captured) and ends in the freshly-reset state. -/
theorem prefixShadowReplay_witness :
    (sAfterD.prevBestMatchCommand = some (cmdD, evD)
      ∧ (turnSurvivors sAfterD evA).length = 0)
    ∧ handleKeydown sAfterD evA =
      ((handleKeydown (backToInitial sAfterD) evA).1,
       Effects.append (invokeEff cmdD evD)
         (handleKeydown (backToInitial sAfterD) evA).2)
    ∧ (feedTokens sBoundDDd [evD, evA]).2.invoked = [(cmdD, evD)]
    ∧ (feedTokens sBoundDDd [evD, evA]).1 = backToInitial sBoundDDd :=
  ⟨⟨by decide, by decide⟩,
   prefixShadowReplay sAfterD evA cmdD evD rfl (by decide) rfl
     (by decide) (by decide),
   by decide, by decide⟩

/-- C10: processing one physical key token always terminates, because the
self-call happens at most once per token: the result of `handleKeydownFuel`
is unchanged by any fuel beyond 2; from any state whose holder is empty —
in particular every freshly-reset state, whose holder is cleared and whose
candidate set is reseeded to the full key set — one unit of fuel already
suffices, so the replayed pass cannot trigger another replay. -/
theorem tokenProcessingTerminates :
    (∀ (n : Nat) (s : EngineState) (e : KeyboardEvent),
      handleKeydownFuel (n + 2) s e = handleKeydown s e)
    ∧ (∀ (fuel : Nat) (s : EngineState) (e : KeyboardEvent),
      s.prevBestMatchCommand = none →
      handleKeydownFuel (fuel + 1) s e = handleKeydownFuel 1 s e)
    ∧ (∀ s : EngineState,
      (backToInitial s).prevBestMatchCommand = none
      ∧ (backToInitial s).filtered = keysOf s.bindings) :=
  ⟨fun n s e => hk_fuel_stable n s e,
   fun fuel s e h => hk_none_fuel fuel s e h,
   fun _ => ⟨rfl, rfl⟩⟩

/-- Witness for C10: at the concrete ambiguous state `sAfterD` and token
`"a"` (the replaying scenario), any surplus fuel computes the same result,
and from the freshly-reset state one unit of fuel suffices. -/
theorem tokenProcessingTerminates_witness :
    handleKeydownFuel 7 sAfterD evA = handleKeydown sAfterD evA
    ∧ handleKeydownFuel 4 (backToInitial sAfterD) evA =
        handleKeydownFuel 1 (backToInitial sAfterD) evA :=
  ⟨tokenProcessingTerminates.1 5 sAfterD evA,
   tokenProcessingTerminates.2.1 3 (backToInitial sAfterD) evA rfl⟩

/-- C7 (amended): an untrusted key event never triggers a bound command
and leaves the engine state entirely unchanged (so it keeps — but does not
force — the Idle state), and a trusted IME-composition-flagged key event
never triggers a bound command and forces an immediate reset to the
initial state. -/
theorem untrustedImeNoDispatch :
    (∀ (s : EngineState) (e : KeyboardEvent), e.isTrusted = false →
      handleKeydown s e = (s, emptyEffects))
    ∧ (∀ (s : EngineState) (e : KeyboardEvent),
      e.isTrusted = true → e.vimKey ≠ [] → e.isComposing = true →
      handleKeydown s e = (backToInitial s, cancelCancelEff))
    ∧ emptyEffects.invoked = [] ∧ cancelCancelEff.invoked = [] :=
  ⟨fun s e h => hk_untrusted 1 s e h,
   fun s e h1 h2 h3 => hk_composing 1 s e h1 h2 h3,
   rfl, rfl⟩

/-- Witness for C7: the two amended branches at the concrete accumulating
state `sAfterD`. -/
theorem untrustedImeNoDispatch_witness :
    handleKeydown sAfterD evUntrusted = (sAfterD, emptyEffects)
    ∧ handleKeydown sAfterD evComposing =
        (backToInitial sAfterD, cancelCancelEff) :=
  ⟨untrustedImeNoDispatch.1 sAfterD evUntrusted rfl,
   untrustedImeNoDispatch.2.1 sAfterD evComposing rfl (by decide) rfl⟩

/-- Counterexample to C7 as stated: an untrusted event arriving while the
engine is accumulating (buffer `"d"`) leaves the buffer `"d"`, so it
neither forces nor keeps the Idle state, contradicting "every such event
forces or keeps the engine in the Idle state". -/
theorem untrustedImeNoDispatch_cex :
    (handleKeydown sAfterD evUntrusted).1.sequence = ['d']
    ∧ ['d'] ≠ ([] : KeySeq) := by
  exact ⟨by decide, by decide⟩

/-! ### The armed timer always carries `flushInterval` and the holder -/

theorem hk_timer_link (fuel : Nat) (s : EngineState) (e : KeyboardEvent)
    (h1 : e.isTrusted = true) (h2 : e.vimKey ≠ []) :
    ∀ t : PendingTimer, (handleKeydownFuel (fuel + 1) s e).1.timer = some t →
      t.delay = s.flushInterval
      ∧ t.action =
          armAction (handleKeydownFuel (fuel + 1) s e).1.prevBestMatchCommand := by
  induction fuel generalizing s with
  | zero =>
    intro t ht
    by_cases h3 : e.isComposing = true
    · rw [hk_composing 0 s e h1 h2 h3] at ht ⊢
      exact absurd ht (by simp [backToInitial])
    · have h3' : e.isComposing = false := by
        revert h3; cases e.isComposing <;> simp
      cases hH : turnHeld s e with
      | none =>
        by_cases hs : (turnSurvivors s e).length = 0
        · rw [hk_idle0 0 s e h1 h2 h3' hH hs] at ht ⊢
          exact absurd ht (by simp [backToInitial])
        · rw [hk_arm_none 0 s e h1 h2 h3' hH hs] at ht ⊢
          have := Option.some.inj ht
          subst this
          exact ⟨rfl, rfl⟩
      | some p =>
        obtain ⟨cmd, ev⟩ := p
        by_cases hs : (turnSurvivors s e).length = 0
        · rw [hk_replay 0 s e cmd ev h1 h2 h3' hH hs] at ht ⊢
          exact absurd ht (by simp [handleKeydownFuel, backToInitial])
        · rcases Nat.lt_or_ge (turnSurvivors s e).length 2 with hlt | hge
          · have hs1 : (turnSurvivors s e).length = 1 := by omega
            rw [hk_run_one 0 s e cmd ev h1 h2 h3' hH hs1] at ht ⊢
            exact absurd ht (by simp [backToInitial])
          · rw [hk_arm_some 0 s e cmd ev h1 h2 h3' hH hge] at ht ⊢
            have := Option.some.inj ht
            subst this
            exact ⟨rfl, rfl⟩
  | succ n ih =>
    intro t ht
    by_cases h3 : e.isComposing = true
    · rw [hk_composing (n + 1) s e h1 h2 h3] at ht ⊢
      exact absurd ht (by simp [backToInitial])
    · have h3' : e.isComposing = false := by
        revert h3; cases e.isComposing <;> simp
      cases hH : turnHeld s e with
      | none =>
        by_cases hs : (turnSurvivors s e).length = 0
        · rw [hk_idle0 (n + 1) s e h1 h2 h3' hH hs] at ht ⊢
          exact absurd ht (by simp [backToInitial])
        · rw [hk_arm_none (n + 1) s e h1 h2 h3' hH hs] at ht ⊢
          have := Option.some.inj ht
          subst this
          exact ⟨rfl, rfl⟩
      | some p =>
        obtain ⟨cmd, ev⟩ := p
        by_cases hs : (turnSurvivors s e).length = 0
        · rw [hk_replay (n + 1) s e cmd ev h1 h2 h3' hH hs] at ht ⊢
          exact ih (backToInitial s) t ht
        · rcases Nat.lt_or_ge (turnSurvivors s e).length 2 with hlt | hge
          · have hs1 : (turnSurvivors s e).length = 1 := by omega
            rw [hk_run_one (n + 1) s e cmd ev h1 h2 h3' hH hs1] at ht ⊢
            exact absurd ht (by simp [backToInitial])
          · rw [hk_arm_some (n + 1) s e cmd ev h1 h2 h3' hH hge] at ht ⊢
            have := Option.some.inj ht
            subst this
            exact ⟨rfl, rfl⟩

/-- C3: flush-timer behavior.  On expiry of a pending timer holding the
captured best-match closure, the engine invokes the held command and then
resets to the initial state; on expiry of a timer holding `backToInitial`
it only resets; every timer armed by processing a key token carries the
configured `flushInterval` as its delay and its action is the captured
holder when non-empty, else the reset; and a `Mousetrap` constructed
without a `flushInterval` option uses the constant 1000. -/
theorem flushTimerBehavior :
    (mkMousetrap none).flushInterval = 1000
    ∧ (∀ (s : EngineState) (c : Command) (ev : KeyboardEvent) (d : Nat),
      s.timer = some { action := TimerAction.commit c ev, delay := d } →
      fireTimer s = (backToInitial s, commitFireEff c ev))
    ∧ (∀ (s : EngineState) (d : Nat),
      s.timer = some { action := TimerAction.toInitial, delay := d } →
      fireTimer s = (backToInitial s, resetFireEff))
    ∧ (∀ (s : EngineState) (e : KeyboardEvent) (t : PendingTimer),
      e.isTrusted = true → e.vimKey ≠ [] →
      (handleKeydown s e).1.timer = some t →
      t.delay = s.flushInterval
      ∧ t.action = armAction (handleKeydown s e).1.prevBestMatchCommand) := by
  refine ⟨rfl, ?_, ?_, ?_⟩
  · intro s c ev d h
    have hb : backToInitial { s with timer := none } = backToInitial s := rfl
    simp [fireTimer, h, hb]
  · intro s d h
    have hb : backToInitial { s with timer := none } = backToInitial s := rfl
    simp [fireTimer, h, hb]
  · intro s e t h1 h2 ht
    exact hk_timer_link 1 s e h1 h2 t ht

/-- Witness for C3: at the concrete state `sAfterD` (holder `"d"`'s
command, timer armed by the `"d"` token), the armed timer carries
`flushInterval = 1000` and the holder's commit action, and firing it
invokes `"d"`'s command and resets. -/
theorem flushTimerBehavior_witness :
    fireTimer sAfterD = (backToInitial sAfterD, commitFireEff cmdD evD)
    ∧ ((handleKeydown sBoundDDd evD).1.timer =
          some { action := TimerAction.commit cmdD evD, delay := 1000 }
        ∧ (1000 : Nat) = sBoundDDd.flushInterval) :=
  ⟨flushTimerBehavior.2.1 sAfterD cmdD evD 1000 (by decide),
   by decide,
   (flushTimerBehavior.2.2.2 sBoundDDd evD
      { action := TimerAction.commit cmdD evD, delay := 1000 }
      rfl (by decide) (by decide)).1⟩

/-! ### Timer-operation traces -/

theorem hk_ops_none (fuel : Nat) (s : EngineState) (e : KeyboardEvent)
    (h : s.prevBestMatchCommand = none)
    (h1 : e.isTrusted = true) (h2 : e.vimKey ≠ []) :
    (handleKeydownFuel (fuel + 1) s e).2.timerOps
        = [TimerOp.cancel, TimerOp.cancel]
    ∨ (handleKeydownFuel (fuel + 1) s e).2.timerOps
        = [TimerOp.cancel, TimerOp.arm] := by
  by_cases h3 : e.isComposing = true
  · rw [hk_composing fuel s e h1 h2 h3]
    exact Or.inl rfl
  · have h3' : e.isComposing = false := by
      revert h3; cases e.isComposing <;> simp
    cases hH : turnHeld s e with
    | none =>
      by_cases hs : (turnSurvivors s e).length = 0
      · rw [hk_idle0 fuel s e h1 h2 h3' hH hs]
        exact Or.inl rfl
      · rw [hk_arm_none fuel s e h1 h2 h3' hH hs]
        exact Or.inr rfl
    | some p =>
      obtain ⟨cmd, ev⟩ := p
      have hs0 : (turnSurvivors s e).length ≠ 0 := by
        intro hs
        have hc := hH
        rw [turnHeld, hs] at hc
        simp [h] at hc
      rcases Nat.lt_or_ge (turnSurvivors s e).length 2 with hlt | hge
      · have hs1 : (turnSurvivors s e).length = 1 := by omega
        rw [hk_run_one fuel s e cmd ev h1 h2 h3' hH hs1]
        exact Or.inl rfl
      · rw [hk_arm_some fuel s e cmd ev h1 h2 h3' hH hge]
        exact Or.inr rfl

theorem hk_ops_shape (s : EngineState) (e : KeyboardEvent)
    (h1 : e.isTrusted = true) (h2 : e.vimKey ≠ []) :
    (handleKeydown s e).2.timerOps = [TimerOp.cancel, TimerOp.cancel]
    ∨ (handleKeydown s e).2.timerOps = [TimerOp.cancel, TimerOp.arm]
    ∨ (handleKeydown s e).2.timerOps
        = [TimerOp.cancel, TimerOp.cancel, TimerOp.cancel, TimerOp.cancel]
    ∨ (handleKeydown s e).2.timerOps
        = [TimerOp.cancel, TimerOp.cancel, TimerOp.cancel, TimerOp.arm] := by
  by_cases h3 : e.isComposing = true
  · rw [show handleKeydown s e = (backToInitial s, cancelCancelEff) from
      hk_composing 1 s e h1 h2 h3]
    exact Or.inl rfl
  · have h3' : e.isComposing = false := by
      revert h3; cases e.isComposing <;> simp
    cases hH : turnHeld s e with
    | none =>
      by_cases hs : (turnSurvivors s e).length = 0
      · rw [show handleKeydown s e = (backToInitial s, cancelCancelEff) from
          hk_idle0 1 s e h1 h2 h3' hH hs]
        exact Or.inl rfl
      · rw [show handleKeydown s e = (armState (stepState s e), armEff) from
          hk_arm_none 1 s e h1 h2 h3' hH hs]
        exact Or.inr (Or.inl rfl)
    | some p =>
      obtain ⟨cmd, ev⟩ := p
      by_cases hs : (turnSurvivors s e).length = 0
      · have hrw : handleKeydown s e =
            ((handleKeydownFuel 1 (backToInitial s) e).1,
             Effects.append (invokeEff cmd ev)
               (handleKeydownFuel 1 (backToInitial s) e).2) :=
          hk_replay 1 s e cmd ev h1 h2 h3' hH hs
        rw [hrw]
        rcases hk_ops_none 0 (backToInitial s) e rfl h1 h2 with hin | hin
        · refine Or.inr (Or.inr (Or.inl ?_))
          show (invokeEff cmd ev).timerOps ++
              (handleKeydownFuel 1 (backToInitial s) e).2.timerOps = _
          rw [hin]
          rfl
        · refine Or.inr (Or.inr (Or.inr ?_))
          show (invokeEff cmd ev).timerOps ++
              (handleKeydownFuel 1 (backToInitial s) e).2.timerOps = _
          rw [hin]
          rfl
      · rcases Nat.lt_or_ge (turnSurvivors s e).length 2 with hlt | hge
        · have hs1 : (turnSurvivors s e).length = 1 := by omega
          rw [show handleKeydown s e = (backToInitial s, invokeEff cmd ev) from
            hk_run_one 1 s e cmd ev h1 h2 h3' hH hs1]
          exact Or.inl rfl
        · rw [show handleKeydown s e = (armState (stepState s e), armEff) from
            hk_arm_some 1 s e cmd ev h1 h2 h3' hH hge]
          exact Or.inr (Or.inl rfl)

/-- C9: at most one pending timer is ever outstanding.  Events that are
not processed at all issue no timer operation; every processed key token's
very first timer operation is a `clearTimeout`; one run of `handleKeydown`
issues at most one `setTimeout`, and only as its final timer operation (so
a new timer is armed only after every earlier timer operation, each a
cancellation); and every reset (`backToInitial`) leaves no live timer. -/
theorem singlePendingTimer :
    (∀ (s : EngineState) (e : KeyboardEvent),
      e.isTrusted = false ∨ e.vimKey = [] →
      (handleKeydown s e).2.timerOps = [])
    ∧ (∀ (s : EngineState) (e : KeyboardEvent),
      e.isTrusted = true → e.vimKey ≠ [] →
      (handleKeydown s e).2.timerOps.head? = some TimerOp.cancel)
    ∧ (∀ (s : EngineState) (e : KeyboardEvent),
      (handleKeydown s e).2.timerOps.count TimerOp.arm ≤ 1)
    ∧ (∀ (s : EngineState) (e : KeyboardEvent),
      TimerOp.arm ∉ (handleKeydown s e).2.timerOps.dropLast)
    ∧ (∀ s : EngineState, (backToInitial s).timer = none) := by
  have hid : ∀ (s : EngineState) (e : KeyboardEvent),
      e.isTrusted = false ∨ e.vimKey = [] →
      (handleKeydown s e).2.timerOps = [] := by
    intro s e h
    rcases h with h | h
    · rw [show handleKeydown s e = (s, emptyEffects) from hk_untrusted 1 s e h]
      rfl
    · rw [show handleKeydown s e = (s, emptyEffects) from hk_emptyKey 1 s e h]
      rfl
  refine ⟨hid, ?_, ?_, ?_, fun _ => rfl⟩
  · intro s e h1 h2
    rcases hk_ops_shape s e h1 h2 with h | h | h | h <;> rw [h] <;> rfl
  · intro s e
    by_cases h1 : e.isTrusted = true
    · by_cases h2 : e.vimKey = []
      · rw [hid s e (Or.inr h2)]
        decide
      · rcases hk_ops_shape s e h1 h2 with h | h | h | h <;> rw [h] <;> decide
    · have h1' : e.isTrusted = false := by
        revert h1; cases e.isTrusted <;> simp
      rw [hid s e (Or.inl h1')]
      decide
  · intro s e
    by_cases h1 : e.isTrusted = true
    · by_cases h2 : e.vimKey = []
      · rw [hid s e (Or.inr h2)]
        decide
      · rcases hk_ops_shape s e h1 h2 with h | h | h | h <;> rw [h] <;> decide
    · have h1' : e.isTrusted = false := by
        revert h1; cases e.isTrusted <;> simp
      rw [hid s e (Or.inl h1')]
      decide

/-- Witness for C9: the concrete processed token `"d"` on the bound engine
opens its timer-operation trace with a cancellation, and the untrusted
event issues no timer operation. -/
theorem singlePendingTimer_witness :
    (handleKeydown sBoundDDd evD).2.timerOps.head? = some TimerOp.cancel
    ∧ (handleKeydown sBoundDDd evUntrusted).2.timerOps = [] :=
  ⟨singlePendingTimer.2.1 sBoundDDd evD rfl (by decide),
   singlePendingTimer.1 sBoundDDd evUntrusted (Or.inl rfl)⟩

/-! ### Throwing commands do not change the engine's trajectory -/

theorem lookup_calm (B : List (KeySeq × Command)) (k : KeySeq) :
    lookupAssoc (calmBindings B) k = (lookupAssoc B k).map Command.calm := by
  induction B with
  | nil => rfl
  | cons p rest ih =>
    obtain ⟨k', v⟩ := p
    by_cases h : k' = k
    · simp [calmBindings, lookupAssoc, h]
    · simp only [calmBindings, List.map_cons, lookupAssoc, if_neg h]
      simpa [calmBindings] using ih

theorem keysOf_calm (B : List (KeySeq × Command)) :
    keysOf (calmBindings B) = keysOf B := by
  simp [keysOf, calmBindings]

theorem filterPass_calm (B : List (KeySeq × Command)) (q : KeySeq)
    (l : List KeySeq) : filterPass (calmBindings B) q l = filterPass B q l := by
  unfold filterPass
  congr 1
  funext k
  rw [lookup_calm]
  cases lookupAssoc B k <;> rfl

theorem exactMatch_calm (B : List (KeySeq × Command)) (q : KeySeq)
    (l : List KeySeq) :
    exactMatch (calmBindings B) q l = (exactMatch B q l).map Command.calm := by
  unfold exactMatch
  by_cases h : q ∈ l
  · rw [if_pos h, if_pos h, lookup_calm]
  · rw [if_neg h, if_neg h]
    rfl

theorem turnSurvivors_calm (s : EngineState) (e : KeyboardEvent) :
    turnSurvivors (calmState s) e = turnSurvivors s e := by
  unfold turnSurvivors
  exact filterPass_calm s.bindings (turnSeq s e) s.filtered

theorem turnBest_calm (s : EngineState) (e : KeyboardEvent) :
    turnBest (calmState s) e = (turnBest s e).map Command.calm := by
  unfold turnBest
  exact exactMatch_calm s.bindings (turnSeq s e) s.filtered

theorem turnHeld_calm (s : EngineState) (e : KeyboardEvent) :
    turnHeld (calmState s) e = (turnHeld s e).map calmPair := by
  unfold turnHeld
  rw [turnSurvivors_calm, turnBest_calm]
  by_cases h : 0 < (turnSurvivors s e).length
  · rw [if_pos h, if_pos h]
    cases turnBest s e <;> rfl
  · rw [if_neg h, if_neg h]
    rfl

theorem backToInitial_calm (s : EngineState) :
    backToInitial (calmState s) = calmState (backToInitial s) := by
  simp [backToInitial, calmState, keysOf_calm]

theorem stepState_calm (s : EngineState) (e : KeyboardEvent) :
    stepState (calmState s) e = calmState (stepState s e) := by
  show ({ calmState s with
      timer := none
      sequence := turnSeq (calmState s) e
      filtered := turnSurvivors (calmState s) e
      prevBestMatchCommand := turnHeld (calmState s) e } : EngineState) = _
  rw [turnSurvivors_calm, turnHeld_calm]
  rfl

theorem armAction_calm (o : Option (Command × KeyboardEvent)) :
    armAction (o.map calmPair) = calmAction (armAction o) := by
  cases o with
  | none => rfl
  | some p => obtain ⟨c, ev⟩ := p; rfl

theorem armState_calm (s : EngineState) :
    armState (calmState s) = calmState (armState s) := by
  obtain ⟨B, sq, pb, fl, tm, fi⟩ := s
  simp [armState, calmState, calmTimer, armAction_calm]

theorem calmEffects_empty : calmEffects emptyEffects = emptyEffects := rfl

theorem invokeEff_calm (c : Command) (ev : KeyboardEvent) :
    invokeEff c.calm ev = calmEffects (invokeEff c ev) := by
  simp [invokeEff, calmEffects, Command.calm, calmPair]

theorem append_invoke_calm (c : Command) (ev : KeyboardEvent) (f : Effects) :
    Effects.append (invokeEff c.calm ev) (calmEffects f) =
      calmEffects (Effects.append (invokeEff c ev) f) := by
  simp [Effects.append, invokeEff, calmEffects, Command.calm, calmPair]

theorem hk_calm (fuel : Nat) (s : EngineState) (e : KeyboardEvent) :
    handleKeydownFuel fuel (calmState s) e =
      (calmState (handleKeydownFuel fuel s e).1,
       calmEffects (handleKeydownFuel fuel s e).2) := by
  induction fuel generalizing s with
  | zero => rfl
  | succ n ih =>
    by_cases h1 : e.isTrusted = false
    · rw [hk_untrusted n (calmState s) e h1, hk_untrusted n s e h1]
      rfl
    · have h1' : e.isTrusted = true := by revert h1; cases e.isTrusted <;> simp
      by_cases h2 : e.vimKey = []
      · rw [hk_emptyKey n (calmState s) e h2, hk_emptyKey n s e h2]
        rfl
      · by_cases h3 : e.isComposing = true
        · rw [hk_composing n (calmState s) e h1' h2 h3,
            hk_composing n s e h1' h2 h3, backToInitial_calm]
          rfl
        · have h3' : e.isComposing = false := by
            revert h3; cases e.isComposing <;> simp
          cases hH : turnHeld s e with
          | none =>
            have hHc : turnHeld (calmState s) e = none := by
              rw [turnHeld_calm, hH]; rfl
            by_cases hs : (turnSurvivors s e).length = 0
            · have hsc : (turnSurvivors (calmState s) e).length = 0 := by
                rw [turnSurvivors_calm]; exact hs
              rw [hk_idle0 n (calmState s) e h1' h2 h3' hHc hsc,
                hk_idle0 n s e h1' h2 h3' hH hs, backToInitial_calm]
              rfl
            · have hsc : (turnSurvivors (calmState s) e).length ≠ 0 := by
                rw [turnSurvivors_calm]; exact hs
              rw [hk_arm_none n (calmState s) e h1' h2 h3' hHc hsc,
                hk_arm_none n s e h1' h2 h3' hH hs, stepState_calm,
                armState_calm]
              rfl
          | some p =>
            obtain ⟨cmd, ev⟩ := p
            have hHc : turnHeld (calmState s) e = some (cmd.calm, ev) := by
              rw [turnHeld_calm, hH]; rfl
            by_cases hs : (turnSurvivors s e).length = 0
            · have hsc : (turnSurvivors (calmState s) e).length = 0 := by
                rw [turnSurvivors_calm]; exact hs
              rw [hk_replay n (calmState s) e cmd.calm ev h1' h2 h3' hHc hsc,
                hk_replay n s e cmd ev h1' h2 h3' hH hs, backToInitial_calm,
                ih (backToInitial s), append_invoke_calm]
            · have hsc : (turnSurvivors (calmState s) e).length ≠ 0 := by
                rw [turnSurvivors_calm]; exact hs
              rcases Nat.lt_or_ge (turnSurvivors s e).length 2 with hlt | hge
              · have hs1 : (turnSurvivors s e).length = 1 := by omega
                have hs1c : (turnSurvivors (calmState s) e).length = 1 := by
                  rw [turnSurvivors_calm]; exact hs1
                rw [hk_run_one n (calmState s) e cmd.calm ev h1' h2 h3' hHc hs1c,
                  hk_run_one n s e cmd ev h1' h2 h3' hH hs1, backToInitial_calm,
                  invokeEff_calm]
              · have hgec : 2 ≤ (turnSurvivors (calmState s) e).length := by
                  rw [turnSurvivors_calm]; exact hge
                rw [hk_arm_some n (calmState s) e cmd.calm ev h1' h2 h3' hHc hgec,
                  hk_arm_some n s e cmd ev h1' h2 h3' hH hge, stepState_calm,
                  armState_calm]
                rfl

theorem hk_errors (fuel : Nat) (s : EngineState) (e : KeyboardEvent) :
    (handleKeydownFuel fuel s e).2.errorsLogged =
      ((handleKeydownFuel fuel s e).2.invoked.filter
        (fun p => p.1.throws)).map (fun p => p.1.id) := by
  induction fuel generalizing s with
  | zero => rfl
  | succ n ih =>
    by_cases h1 : e.isTrusted = false
    · rw [hk_untrusted n s e h1]
      rfl
    · have h1' : e.isTrusted = true := by revert h1; cases e.isTrusted <;> simp
      by_cases h2 : e.vimKey = []
      · rw [hk_emptyKey n s e h2]
        rfl
      · by_cases h3 : e.isComposing = true
        · rw [hk_composing n s e h1' h2 h3]
          rfl
        · have h3' : e.isComposing = false := by
            revert h3; cases e.isComposing <;> simp
          cases hH : turnHeld s e with
          | none =>
            by_cases hs : (turnSurvivors s e).length = 0
            · rw [hk_idle0 n s e h1' h2 h3' hH hs]
              rfl
            · rw [hk_arm_none n s e h1' h2 h3' hH hs]
              rfl
          | some p =>
            obtain ⟨cmd, ev⟩ := p
            by_cases hs : (turnSurvivors s e).length = 0
            · rw [hk_replay n s e cmd ev h1' h2 h3' hH hs]
              have hrec := ih (backToInitial s)
              by_cases hth : cmd.throws = true
              · simp [Effects.append, invokeEff, hth, hrec]
              · have hth' : cmd.throws = false := by
                  revert hth; cases cmd.throws <;> simp
                simp [Effects.append, invokeEff, hth', hrec]
            · rcases Nat.lt_or_ge (turnSurvivors s e).length 2 with hlt | hge
              · have hs1 : (turnSurvivors s e).length = 1 := by omega
                rw [hk_run_one n s e cmd ev h1' h2 h3' hH hs1]
                by_cases hth : cmd.throws = true
                · simp [invokeEff, hth]
                · have hth' : cmd.throws = false := by
                    revert hth; cases cmd.throws <;> simp
                  simp [invokeEff, hth']
              · rw [hk_arm_some n s e cmd ev h1' h2 h3' hH hge]
                rfl

theorem commitFireEff_calm (c : Command) (ev : KeyboardEvent) :
    commitFireEff c.calm ev = calmEffects (commitFireEff c ev) := by
  simp [commitFireEff, calmEffects, Command.calm, calmPair]

theorem fireTimer_calm (s : EngineState) :
    fireTimer (calmState s) =
      (calmState (fireTimer s).1, calmEffects (fireTimer s).2) := by
  obtain ⟨B, sq, pb, fl, tm, fi⟩ := s
  cases tm with
  | none => rfl
  | some t =>
    obtain ⟨a, d⟩ := t
    cases a with
    | commit c ev =>
      show fireTimer (calmState ⟨B, sq, pb, fl, some ⟨TimerAction.commit c ev, d⟩, fi⟩) = _
      rw [show (fireTimer ⟨B, sq, pb, fl, some ⟨TimerAction.commit c ev, d⟩, fi⟩) =
        (backToInitial ⟨B, sq, pb, fl, none, fi⟩, commitFireEff c ev) from rfl]
      rw [show (fireTimer (calmState ⟨B, sq, pb, fl, some ⟨TimerAction.commit c ev, d⟩, fi⟩)) =
        (backToInitial (calmState ⟨B, sq, pb, fl, none, fi⟩), commitFireEff c.calm ev) from rfl]
      rw [backToInitial_calm, commitFireEff_calm]
    | toInitial =>
      show fireTimer (calmState ⟨B, sq, pb, fl, some ⟨TimerAction.toInitial, d⟩, fi⟩) = _
      rw [show (fireTimer ⟨B, sq, pb, fl, some ⟨TimerAction.toInitial, d⟩, fi⟩) =
        (backToInitial ⟨B, sq, pb, fl, none, fi⟩, resetFireEff) from rfl]
      rw [show (fireTimer (calmState ⟨B, sq, pb, fl, some ⟨TimerAction.toInitial, d⟩, fi⟩)) =
        (backToInitial (calmState ⟨B, sq, pb, fl, none, fi⟩), resetFireEff) from rfl]
      rw [backToInitial_calm]
      rfl

theorem fireTimer_errors (s : EngineState) :
    (fireTimer s).2.errorsLogged =
      ((fireTimer s).2.invoked.filter (fun p => p.1.throws)).map
        (fun p => p.1.id) := by
  obtain ⟨B, sq, pb, fl, tm, fi⟩ := s
  cases tm with
  | none => rfl
  | some t =>
    obtain ⟨a, d⟩ := t
    cases a with
    | commit c ev =>
      by_cases hth : c.throws = true
      · simp [fireTimer, commitFireEff, hth]
      · have hth' : c.throws = false := by
          revert hth; cases c.throws <;> simp
        simp [fireTimer, commitFireEff, hth']
    | toInitial => rfl

/-- C6: errors thrown by invoked commands are contained.  Every run logs
exactly the identifiers of the invoked commands that throw (the error is
caught and logged at the point of invocation — the step functions are
total, so nothing propagates), and replacing every command by a
non-throwing twin commutes with both `handleKeydown` and `fireTimer`: the
engine follows exactly the same state trajectory — including the reset
after the invocation — and produces the same invocations, flags and timer
operations, whether or not the commands throw. -/
theorem commandErrorsContained :
    (∀ (s : EngineState) (e : KeyboardEvent),
      (handleKeydown s e).2.errorsLogged =
        ((handleKeydown s e).2.invoked.filter (fun p => p.1.throws)).map
          (fun p => p.1.id))
    ∧ (∀ (s : EngineState) (e : KeyboardEvent),
      handleKeydown (calmState s) e =
        (calmState (handleKeydown s e).1,
         calmEffects (handleKeydown s e).2))
    ∧ (∀ s : EngineState,
      (fireTimer s).2.errorsLogged =
        ((fireTimer s).2.invoked.filter (fun p => p.1.throws)).map
          (fun p => p.1.id))
    ∧ (∀ s : EngineState,
      fireTimer (calmState s) =
        (calmState (fireTimer s).1, calmEffects (fireTimer s).2)) :=
  ⟨fun s e => hk_errors 2 s e, fun s e => hk_calm 2 s e,
   fireTimer_errors, fireTimer_calm⟩

/-! ### Lemmas about unbind -/

theorem lookup_delAssoc {α β : Type} [DecidableEq α]
    (l : List (α × β)) (k k' : α) :
    lookupAssoc (delAssoc l k) k' =
      if k' = k then none else lookupAssoc l k' := by
  induction l with
  | nil =>
    simp [delAssoc, lookupAssoc]
  | cons p rest ih =>
    obtain ⟨a, b⟩ := p
    by_cases hak : a = k
    · subst hak
      rw [delAssoc, if_pos rfl, ih]
      by_cases hk : k' = a
      · rw [if_pos hk, if_pos hk]
      · rw [if_neg hk, if_neg hk, lookupAssoc,
          if_neg (fun h => hk h.symm)]
    · rw [delAssoc, if_neg hak]
      by_cases hk : k' = k
      · subst hk
        rw [if_pos rfl, lookupAssoc, if_neg (fun h => hak (h.trans rfl)), ih,
          if_pos rfl]
      · rw [if_neg hk, lookupAssoc, lookupAssoc]
        by_cases ha : a = k'
        · rw [if_pos ha, if_pos ha]
        · rw [if_neg ha, if_neg ha, ih, if_neg hk]

theorem mem_delSet {α : Type} [DecidableEq α] (l : List α) (x k : α) :
    x ∈ delSet l k ↔ x ∈ l ∧ x ≠ k := by
  induction l with
  | nil => simp [delSet]
  | cons y rest ih =>
    by_cases hy : y = k
    · subst hy
      rw [delSet, if_pos rfl, ih]
      constructor
      · rintro ⟨hm, hx⟩
        exact ⟨List.mem_cons_of_mem _ hm, hx⟩
      · rintro ⟨hm, hx⟩
        rcases List.mem_cons.mp hm with h | h
        · exact absurd h hx
        · exact ⟨h, hx⟩
    · rw [delSet, if_neg hy]
      constructor
      · intro hm
        rcases List.mem_cons.mp hm with h | h
        · subst h
          exact ⟨List.mem_cons_self _ _, fun hc => hy hc⟩
        · obtain ⟨hm', hx⟩ := ih.mp h
          exact ⟨List.mem_cons_of_mem _ hm', hx⟩
      · rintro ⟨hm, hx⟩
        rcases List.mem_cons.mp hm with h | h
        · subst h
          exact List.mem_cons_self _ _
        · exact List.mem_cons_of_mem _ (ih.mpr ⟨h, hx⟩)

theorem emitChange_bindings (s : EngineState) :
    (emitChange s).bindings = s.bindings := by
  unfold emitChange
  split <;> rfl

theorem emitChange_of_ne (s : EngineState) (h : s.bindings ≠ []) :
    emitChange s = s := by
  unfold emitChange
  cases hb : s.bindings with
  | nil => exact absurd hb h
  | cons p rest => simp

theorem unbindLoop_lookup (norm : Normalizer) :
    ∀ (seqs : List KeySeq) (s : EngineState) (k : KeySeq),
      lookupAssoc (unbindLoop norm s seqs).bindings k =
        if ∃ q ∈ seqs, norm q = NormResult.ok k then none
        else lookupAssoc s.bindings k := by
  intro seqs
  induction seqs with
  | nil =>
    intro s k
    rw [if_neg (by simp)]
    rfl
  | cons q rest ih =>
    intro s k
    cases hq : norm q with
    | err es =>
      rw [unbindLoop, hq, ih]
      by_cases h : ∃ x ∈ rest, norm x = NormResult.ok k
      · rw [if_pos h, if_pos (by
          obtain ⟨x, hx, hok⟩ := h
          exact ⟨x, List.mem_cons_of_mem _ hx, hok⟩)]
      · rw [if_neg h, if_neg (by
          rintro ⟨x, hx, hok⟩
          rcases List.mem_cons.mp hx with hx' | hx'
          · subst hx'
            rw [hq] at hok
            exact NormResult.noConfusion hok
          · exact h ⟨x, hx', hok⟩)]
    | ok n =>
      rw [unbindLoop, hq, ih]
      by_cases h : ∃ x ∈ rest, norm x = NormResult.ok k
      · rw [if_pos h, if_pos (by
          obtain ⟨x, hx, hok⟩ := h
          exact ⟨x, List.mem_cons_of_mem _ hx, hok⟩)]
      · rw [if_neg h]
        show lookupAssoc (delAssoc s.bindings n) k = _
        rw [lookup_delAssoc]
        by_cases hk : k = n
        · subst hk
          rw [if_pos rfl, if_pos ⟨q, List.mem_cons_self _ _, hq⟩]
        · rw [if_neg hk, if_neg (by
            rintro ⟨x, hx, hok⟩
            rcases List.mem_cons.mp hx with hx' | hx'
            · subst hx'
              rw [hq] at hok
              exact hk (NormResult.ok.inj hok).symm
            · exact h ⟨x, hx', hok⟩)]

theorem unbindLoop_filtered (norm : Normalizer) :
    ∀ (seqs : List KeySeq) (s : EngineState) (k : KeySeq),
      k ∈ (unbindLoop norm s seqs).filtered ↔
        k ∈ s.filtered ∧ ¬∃ q ∈ seqs, norm q = NormResult.ok k := by
  intro seqs
  induction seqs with
  | nil =>
    intro s k
    simp [unbindLoop]
  | cons q rest ih =>
    intro s k
    cases hq : norm q with
    | err es =>
      rw [unbindLoop, hq, ih]
      constructor
      · rintro ⟨hm, hna⟩
        refine ⟨hm, ?_⟩
        rintro ⟨x, hx, hok⟩
        rcases List.mem_cons.mp hx with hx' | hx'
        · subst hx'
          rw [hq] at hok
          exact NormResult.noConfusion hok
        · exact hna ⟨x, hx', hok⟩
      · rintro ⟨hm, hna⟩
        exact ⟨hm, fun ⟨x, hx, hok⟩ => hna ⟨x, List.mem_cons_of_mem _ hx, hok⟩⟩
    | ok n =>
      rw [unbindLoop, hq, ih]
      show k ∈ delSet s.filtered n ∧ _ ↔ _
      rw [mem_delSet]
      constructor
      · rintro ⟨⟨hm, hkn⟩, hna⟩
        refine ⟨hm, ?_⟩
        rintro ⟨x, hx, hok⟩
        rcases List.mem_cons.mp hx with hx' | hx'
        · subst hx'
          rw [hq] at hok
          exact hkn (NormResult.ok.inj hok).symm
        · exact hna ⟨x, hx', hok⟩
      · rintro ⟨hm, hna⟩
        refine ⟨⟨hm, ?_⟩, ?_⟩
        · intro hkn
          exact hna ⟨q, List.mem_cons_self _ _, by rw [hq, hkn]⟩
        · rintro ⟨x, hx, hok⟩
          exact hna ⟨x, List.mem_cons_of_mem _ hx, hok⟩

/-- C8: `unbind` is silent and best-effort.  Each argument is normalized
before lookup (the definition of `unbindLoop` consults only `norm q`);
the table after `unbind` maps `k` to nothing exactly when some argument
normalized to `k`, and is untouched at every other key — so arguments
that fail to normalize are silently ignored; a removed key also leaves
the candidate set.  `unbindBatch` returns only the new state: there is no
error output at all (the TypeScript return type is `void`). -/
theorem unbindSilent (norm : Normalizer) (s : EngineState)
    (seqs : List KeySeq) (k : KeySeq) :
    (lookupAssoc (unbindBatch norm s seqs).bindings k =
      if ∃ q ∈ seqs, norm q = NormResult.ok k then none
      else lookupAssoc s.bindings k)
    ∧ ((∃ q ∈ seqs, norm q = NormResult.ok k) →
      k ∉ (unbindBatch norm s seqs).filtered) := by
  constructor
  · rw [unbindBatch, emitChange_bindings, unbindLoop_lookup]
  · intro hex
    rw [unbindBatch]
    unfold emitChange
    split
    · intro hm
      rw [backToInitial] at hm
      have : (lookupAssoc (unbindLoop norm s seqs).bindings k).isSome = true :=
        lookup_isSome_iff_mem.mpr hm
      rw [unbindLoop_lookup, if_pos hex] at this
      exact Bool.noConfusion this
    · intro hm
      have := (unbindLoop_filtered norm seqs s k).mp hm
      exact this.2 hex

/-- Witness for C8: unbinding `"d"` together with the unparsable `"!"` on
the engine with `"d"` and `"dd"` bound removes `"d"` from table and
candidates, ignores `"!"` silently, and leaves `"dd"` bound. -/
theorem unbindSilent_witness :
    ['d'] ∉ (unbindBatch normToy sBoundDDd [['d'], ['!']]).filtered
    ∧ lookupAssoc (unbindBatch normToy sBoundDDd [['d'], ['!']]).bindings
        ['d', 'd'] = some cmdDD :=
  ⟨(unbindSilent normToy sBoundDDd [['d'], ['!']] ['d']).2 (by decide),
   by decide⟩

/-! ### Lemmas about bind -/

theorem lookup_setAssoc {α β : Type} [DecidableEq α]
    (l : List (α × β)) (k : α) (v : β) (k' : α) :
    lookupAssoc (setAssoc l k v) k' =
      if k' = k then some v else lookupAssoc l k' := by
  induction l with
  | nil =>
    show (if k = k' then some v else none) = _
    by_cases h : k' = k
    · rw [if_pos h.symm, if_pos h]
    · rw [if_neg (fun hc => h hc.symm), if_neg h]
      rfl
  | cons p rest ih =>
    obtain ⟨a, b⟩ := p
    by_cases hak : a = k
    · rw [setAssoc, if_pos hak]
      by_cases hk : k' = k
      · rw [lookupAssoc, if_pos hk.symm, if_pos hk]
      · rw [lookupAssoc, if_neg (fun h => hk h.symm), if_neg hk, lookupAssoc,
          if_neg (fun h => hk (hak ▸ h).symm)]
    · rw [setAssoc, if_neg hak]
      by_cases hk : k' = k
      · subst hk
        rw [lookupAssoc, if_neg (fun h => hak h), ih, if_pos rfl, if_pos rfl]
      · rw [if_neg hk, lookupAssoc, lookupAssoc]
        by_cases ha : a = k'
        · rw [if_pos ha, if_pos ha]
        · rw [if_neg ha, if_neg ha, ih, if_neg hk]

theorem setAssoc_of_not_mem {α β : Type} [DecidableEq α]
    (l : List (α × β)) (k : α) (v : β)
    (h : k ∉ l.map (fun p => p.1)) :
    setAssoc l k v = l ++ [(k, v)] := by
  induction l with
  | nil => rfl
  | cons p rest ih =>
    obtain ⟨a, b⟩ := p
    simp only [List.map_cons, List.mem_cons] at h
    push_neg at h
    rw [setAssoc, if_neg (fun hc => h.1 hc.symm), ih h.2]
    rfl

theorem bindLoop_bindings_isSome (norm : Normalizer) :
    ∀ (kbs : List (KeySeq × Command)) (s : EngineState)
      (acc : List (KeySeq × List BindingError)) (x : KeySeq),
      (lookupAssoc s.bindings x).isSome = true →
      (lookupAssoc (bindLoop norm s acc kbs).1.bindings x).isSome = true := by
  intro kbs
  induction kbs with
  | nil => intro s acc x h; exact h
  | cons p rest ih =>
    intro s acc x h
    obtain ⟨q, cmd⟩ := p
    cases hq : norm q with
    | err es =>
      rw [bindLoop, hq]
      exact ih s _ x h
    | ok n =>
      rw [bindLoop, hq]
      refine ih _ acc x ?_
      show (lookupAssoc (setAssoc s.bindings n cmd) x).isSome = true
      rw [lookup_setAssoc]
      by_cases hx : x = n
      · rw [if_pos hx]
        rfl
      · rw [if_neg hx]
        exact h

theorem bindLoop_inserts (norm : Normalizer) :
    ∀ (kbs : List (KeySeq × Command)) (s : EngineState)
      (acc : List (KeySeq × List BindingError))
      (q : KeySeq) (cmd : Command) (n : KeySeq),
      (q, cmd) ∈ kbs → norm q = NormResult.ok n →
      (lookupAssoc (bindLoop norm s acc kbs).1.bindings n).isSome = true := by
  intro kbs
  induction kbs with
  | nil => intro s acc q cmd n h; exact absurd h (List.not_mem_nil _)
  | cons p rest ih =>
    intro s acc q cmd n hmem hok
    rcases List.mem_cons.mp hmem with h | h
    · subst h
      rw [bindLoop, hok]
      refine bindLoop_bindings_isSome norm rest _ acc n ?_
      show (lookupAssoc (setAssoc s.bindings n cmd) n).isSome = true
      rw [lookup_setAssoc, if_pos rfl]
      rfl
    · obtain ⟨q', cmd'⟩ := p
      cases hq : norm q' with
      | err es =>
        rw [bindLoop, hq]
        exact ih s _ q cmd n h hok
      | ok n' =>
        rw [bindLoop, hq]
        exact ih _ acc q cmd n h hok

theorem bindLoop_unchanged (norm : Normalizer) :
    ∀ (kbs : List (KeySeq × Command)) (s : EngineState)
      (acc : List (KeySeq × List BindingError)) (k : KeySeq),
      (∀ p ∈ kbs, ∀ n, norm p.1 = NormResult.ok n → n ≠ k) →
      lookupAssoc (bindLoop norm s acc kbs).1.bindings k =
        lookupAssoc s.bindings k := by
  intro kbs
  induction kbs with
  | nil => intro s acc k _; rfl
  | cons p rest ih =>
    intro s acc k hno
    obtain ⟨q, cmd⟩ := p
    cases hq : norm q with
    | err es =>
      rw [bindLoop, hq]
      exact ih s _ k (fun p hp => hno p (List.mem_cons_of_mem _ hp))
    | ok n =>
      rw [bindLoop, hq]
      rw [ih _ acc k (fun p hp => hno p (List.mem_cons_of_mem _ hp))]
      show lookupAssoc (setAssoc s.bindings n cmd) k = _
      rw [lookup_setAssoc,
        if_neg (fun hc => hno (q, cmd) (List.mem_cons_self _ _) n hq hc.symm)]

theorem bindLoop_overwrites (norm : Normalizer) :
    ∀ (kbs : List (KeySeq × Command)) (s : EngineState)
      (acc : List (KeySeq × List BindingError))
      (q : KeySeq) (cmd : Command) (n : KeySeq),
      (kbs.map (fun p => p.1)).Nodup →
      (q, cmd) ∈ kbs → norm q = NormResult.ok n →
      (∀ p ∈ kbs, p.1 ≠ q → norm p.1 ≠ NormResult.ok n) →
      lookupAssoc (bindLoop norm s acc kbs).1.bindings n = some cmd := by
  intro kbs
  induction kbs with
  | nil =>
    intro s acc q cmd n _ hmem
    exact absurd hmem (List.not_mem_nil _)
  | cons p₀ rest ih =>
    intro s acc q cmd n hnd hmem hok hother
    obtain ⟨q₀, cmd₀⟩ := p₀
    have hnd' : (q₀ :: rest.map (fun p => p.1)).Nodup := by
      rw [List.map_cons] at hnd
      exact hnd
    have hndr : (rest.map (fun p => p.1)).Nodup := (List.nodup_cons.mp hnd').2
    have hq0not : q₀ ∉ rest.map (fun p => p.1) := (List.nodup_cons.mp hnd').1
    rcases List.mem_cons.mp hmem with hh | hh
    · have hq0 : q₀ = q := (congrArg Prod.fst hh).symm
      have hc0 : cmd₀ = cmd := (congrArg Prod.snd hh).symm
      rw [bindLoop, show norm q₀ = NormResult.ok n by rw [hq0]; exact hok]
      rw [bindLoop_unchanged norm rest _ acc n ?_]
      · show lookupAssoc (setAssoc s.bindings n cmd₀) n = some cmd
        rw [lookup_setAssoc, if_pos rfl, hc0]
      · intro p hp n' hok' hc
        have hpq : p.1 ≠ q := by
          intro he
          apply hq0not
          rw [hq0, ← he]
          exact List.mem_map_of_mem (fun p => p.1) hp
        apply hother p (List.mem_cons_of_mem _ hp) hpq
        rw [← hc]
        exact hok'
    · have hother' : ∀ p ∈ rest, p.1 ≠ q → norm p.1 ≠ NormResult.ok n :=
        fun p hp => hother p (List.mem_cons_of_mem _ hp)
      cases hq0 : norm q₀ with
      | err es =>
        rw [bindLoop, hq0]
        exact ih s _ q cmd n hndr hh hok hother'
      | ok n₀ =>
        rw [bindLoop, hq0]
        exact ih _ acc q cmd n hndr hh hok hother'

theorem bindLoop_report (norm : Normalizer) :
    ∀ (kbs : List (KeySeq × Command)) (s : EngineState)
      (acc : List (KeySeq × List BindingError)),
      (kbs.map (fun p => p.1)).Nodup →
      (∀ p ∈ kbs, p.1 ∉ acc.map (fun r => r.1)) →
      (bindLoop norm s acc kbs).2 =
        acc ++ kbs.filterMap (fun p =>
          match norm p.1 with
          | NormResult.err es => some (p.1, es)
          | NormResult.ok _ => none) := by
  intro kbs
  induction kbs with
  | nil => intro s acc _ _; simp [bindLoop]
  | cons p rest ih =>
    intro s acc hnd hdisj
    obtain ⟨q, cmd⟩ := p
    have hnd' : (q :: rest.map (fun p => p.1)).Nodup := by
      rw [List.map_cons] at hnd
      exact hnd
    have hndr : (rest.map (fun p => p.1)).Nodup := (List.nodup_cons.mp hnd').2
    have hqnot : q ∉ rest.map (fun p => p.1) := (List.nodup_cons.mp hnd').1
    have hqrest : ∀ p ∈ rest, p.1 ≠ q := fun p hp hc =>
      hqnot (hc ▸ List.mem_map_of_mem (fun p => p.1) hp)
    have hqacc : q ∉ acc.map (fun r => r.1) :=
      hdisj (q, cmd) (List.mem_cons_self _ _)
    cases hq : norm q with
    | err es =>
      rw [bindLoop, hq]
      rw [ih s (setAssoc acc q es) hndr ?_]
      · rw [setAssoc_of_not_mem acc q es hqacc]
        simp [hq, List.append_assoc]
      · intro p hp
        rw [setAssoc_of_not_mem acc q es hqacc]
        simp only [List.map_append, List.mem_append]
        rintro (hm | hm)
        · exact hdisj p (List.mem_cons_of_mem _ hp) hm
        · simp at hm
          exact hqrest p hp hm
    | ok n =>
      rw [bindLoop, hq]
      rw [ih _ acc hndr (fun p hp => hdisj p (List.mem_cons_of_mem _ hp))]
      simp [hq]

/-- C4: batch bind is per-sequence independent.  Under the well-formedness
of every call site (batch keys are distinct, as they come from a JavaScript
`Map` or object literal): every entry failing normalization appears with its
errors in the returned report; every entry normalizing to `n` leaves `n`
bound in the table even when sibling entries failed — and when the entry is
the only one of the batch normalizing to `n`, the table afterwards maps `n`
to exactly that entry's command, overwriting whatever command the table
previously held for `n`; keys to which no batch entry normalizes — in
particular anything a failing sequence could have denoted — are untouched
in the table; and the report is empty exactly when every entry normalizes
successfully. -/
theorem bindBatchIndependent (norm : Normalizer) (s : EngineState)
    (kbs : List (KeySeq × Command))
    (hnd : (kbs.map (fun p => p.1)).Nodup) :
    (∀ (q : KeySeq) (cmd : Command) (es : List BindingError),
      (q, cmd) ∈ kbs → norm q = NormResult.err es →
      (q, es) ∈ (bindBatch norm s kbs).2)
    ∧ (∀ (q : KeySeq) (cmd : Command) (n : KeySeq),
      (q, cmd) ∈ kbs → norm q = NormResult.ok n →
      (lookupAssoc (bindBatch norm s kbs).1.bindings n).isSome = true)
    ∧ (∀ (q : KeySeq) (cmd : Command) (n : KeySeq),
      (q, cmd) ∈ kbs → norm q = NormResult.ok n →
      (∀ p ∈ kbs, p.1 ≠ q → norm p.1 ≠ NormResult.ok n) →
      lookupAssoc (bindBatch norm s kbs).1.bindings n = some cmd)
    ∧ (∀ k : KeySeq,
      (∀ p ∈ kbs, ∀ n, norm p.1 = NormResult.ok n → n ≠ k) →
      lookupAssoc (bindBatch norm s kbs).1.bindings k =
        lookupAssoc s.bindings k)
    ∧ ((bindBatch norm s kbs).2 = [] ↔
      ∀ p ∈ kbs, ∃ n, norm p.1 = NormResult.ok n) := by
  have hrep : (bindBatch norm s kbs).2 =
      kbs.filterMap (fun p =>
        match norm p.1 with
        | NormResult.err es => some (p.1, es)
        | NormResult.ok _ => none) := by
    show (bindLoop norm s [] kbs).2 = _
    rw [bindLoop_report norm kbs s [] hnd (by simp)]
    rfl
  refine ⟨?_, ?_, ?_, ?_, ?_⟩
  · intro q cmd es hmem herr
    rw [hrep]
    exact List.mem_filterMap.mpr ⟨(q, cmd), hmem, by rw [herr]⟩
  · intro q cmd n hmem hok
    show (lookupAssoc (emitChange (bindLoop norm s [] kbs).1).bindings n).isSome
      = true
    rw [emitChange_bindings]
    exact bindLoop_inserts norm kbs s [] q cmd n hmem hok
  · intro q cmd n hmem hok hother
    show lookupAssoc (emitChange (bindLoop norm s [] kbs).1).bindings n =
      some cmd
    rw [emitChange_bindings]
    exact bindLoop_overwrites norm kbs s [] q cmd n hnd hmem hok hother
  · intro k hno
    show lookupAssoc (emitChange (bindLoop norm s [] kbs).1).bindings k = _
    rw [emitChange_bindings]
    exact bindLoop_unchanged norm kbs s [] k hno
  · rw [hrep, List.filterMap_eq_nil_iff]
    constructor
    · intro h p hp
      have := h p hp
      cases hq : norm p.1 with
      | err es => simp [hq] at this
      | ok n => exact ⟨n, rfl⟩
    · intro h p hp
      obtain ⟨n, hn⟩ := h p hp
      simp [hn]

/-- Witness for C4: binding the batch `{"!": cmdX, "g": cmdD}` on an
engine whose table already maps `"g"` to `cmdX` — where `"!"` fails to
parse and `"g"` is fine — reports exactly the `"!"` failure while still
binding `"g"`, and the table afterwards maps `"g"` to the batch's `cmdD`,
overwriting the pre-existing `cmdX`, even though the sibling `"!"`
failed. -/
theorem bindBatchIndependent_witness :
    (['!'], [BindingError.invalidSequence]) ∈
      (bindBatch normToy sPreBoundG [(['!'], cmdX), (['g'], cmdD)]).2
    ∧ lookupAssoc
        (bindBatch normToy sPreBoundG
          [(['!'], cmdX), (['g'], cmdD)]).1.bindings ['g'] = some cmdD
    ∧ lookupAssoc sPreBoundG.bindings ['g'] = some cmdX :=
  ⟨(bindBatchIndependent normToy sPreBoundG
      [(['!'], cmdX), (['g'], cmdD)] (by decide)).1
      ['!'] cmdX [BindingError.invalidSequence] (by decide) (by decide),
   (bindBatchIndependent normToy sPreBoundG
      [(['!'], cmdX), (['g'], cmdD)] (by decide)).2.2.1
      ['g'] cmdD ['g'] (by decide) (by decide) (by decide),
   by decide⟩

/-! ### What table mutations do to the matching state -/

theorem mem_addSet {α : Type} [DecidableEq α] (l : List α) (x k : α) :
    k ∈ addSet l x ↔ k ∈ l ∨ k = x := by
  unfold addSet
  by_cases h : x ∈ l
  · rw [if_pos h]
    constructor
    · exact Or.inl
    · rintro (hm | he)
      · exact hm
      · exact he ▸ h
  · rw [if_neg h]
    simp [List.mem_append]

theorem bindLoop_sequence (norm : Normalizer) :
    ∀ (kbs : List (KeySeq × Command)) (s : EngineState)
      (acc : List (KeySeq × List BindingError)),
      (bindLoop norm s acc kbs).1.sequence = s.sequence := by
  intro kbs
  induction kbs with
  | nil => intro s acc; rfl
  | cons p rest ih =>
    intro s acc
    obtain ⟨q, cmd⟩ := p
    cases hq : norm q with
    | err es => rw [bindLoop, hq]; exact ih s _
    | ok n => rw [bindLoop, hq]; exact ih _ acc

theorem unbindLoop_sequence (norm : Normalizer) :
    ∀ (seqs : List KeySeq) (s : EngineState),
      (unbindLoop norm s seqs).sequence = s.sequence := by
  intro seqs
  induction seqs with
  | nil => intro s; rfl
  | cons q rest ih =>
    intro s
    cases hq : norm q with
    | err es => rw [unbindLoop, hq]; exact ih s
    | ok n => rw [unbindLoop, hq]; exact ih _

theorem bindLoop_filtered (norm : Normalizer) :
    ∀ (kbs : List (KeySeq × Command)) (s : EngineState)
      (acc : List (KeySeq × List BindingError)) (k : KeySeq),
      k ∈ (bindLoop norm s acc kbs).1.filtered ↔
        k ∈ s.filtered ∨ (startsWithKey k s.sequence = true
          ∧ ∃ p ∈ kbs, norm p.1 = NormResult.ok k) := by
  intro kbs
  induction kbs with
  | nil =>
    intro s acc k
    constructor
    · exact Or.inl
    · rintro (hm | ⟨_, x, hx, _⟩)
      · exact hm
      · exact absurd hx (List.not_mem_nil _)
  | cons p rest ih =>
    intro s acc k
    obtain ⟨q, cmd⟩ := p
    cases hq : norm q with
    | err es =>
      rw [bindLoop, hq, ih]
      constructor
      · rintro (hm | ⟨hsw, x, hx, hok⟩)
        · exact Or.inl hm
        · exact Or.inr ⟨hsw, x, List.mem_cons_of_mem _ hx, hok⟩
      · rintro (hm | ⟨hsw, x, hx, hok⟩)
        · exact Or.inl hm
        · rcases List.mem_cons.mp hx with hx' | hx'
          · rw [hx'] at hok
            rw [hq] at hok
            exact NormResult.noConfusion hok
          · exact Or.inr ⟨hsw, x, hx', hok⟩
    | ok n =>
      rw [bindLoop, hq]
      constructor
      · intro hm
        rcases (ih _ acc k).mp hm with hm' | ⟨hsw, x, hx, hok⟩
        · have hm'' : k ∈ (if startsWithKey n s.sequence
              then addSet s.filtered n else s.filtered) := hm'
          by_cases hswn : startsWithKey n s.sequence
          · rw [if_pos hswn] at hm''
            rcases (mem_addSet _ _ _).mp hm'' with hmf | hke
            · exact Or.inl hmf
            · subst hke
              exact Or.inr ⟨hswn, (q, cmd), List.mem_cons_self _ _, hq⟩
          · rw [if_neg hswn] at hm''
            exact Or.inl hm''
        · have hsw' : startsWithKey k s.sequence = true := hsw
          exact Or.inr ⟨hsw', x, List.mem_cons_of_mem _ hx, hok⟩
      · intro hm
        apply (ih _ acc k).mpr
        rcases hm with hm | ⟨hsw, x, hx, hok⟩
        · left
          show k ∈ (if startsWithKey n s.sequence
              then addSet s.filtered n else s.filtered)
          by_cases hswn : startsWithKey n s.sequence
          · rw [if_pos hswn]
            exact (mem_addSet _ _ _).mpr (Or.inl hm)
          · rw [if_neg hswn]
            exact hm
        · rcases List.mem_cons.mp hx with hx' | hx'
          · have hok' : norm q = NormResult.ok k := by
              rw [hx'] at hok
              exact hok
            have hnk : n = k := by
              rw [hq] at hok'
              exact NormResult.ok.inj hok'
            left
            show k ∈ (if startsWithKey n s.sequence
                then addSet s.filtered n else s.filtered)
            rw [hnk, if_pos hsw]
            exact (mem_addSet _ _ _).mpr (Or.inr rfl)
          · right
            exact ⟨hsw, x, hx', hok⟩

/-- C5 (amended): what each Binding Table mutation really does to the
matching state.  `reset()` always forces the initial state (empty table,
empty buffer, empty candidate set, cleared holder, no timer).  `bind` and
`unbind` force that reset only when they leave the table empty; when the
resulting table is non-empty they preserve the Current Sequence Buffer
unchanged and reconcile the Candidate Set incrementally: after `bind` the
candidates are the old ones plus exactly the newly normalized keys that
extend the current buffer, and after `unbind` the old ones minus the
removed keys. -/
theorem tableMutationReconciliation :
    (∀ s : EngineState,
      resetTable s = ⟨[], [], none, [], none, s.flushInterval⟩)
    ∧ (∀ (norm : Normalizer) (s : EngineState)
        (kbs : List (KeySeq × Command)),
      (bindBatch norm s kbs).1.bindings ≠ [] →
      (bindBatch norm s kbs).1.sequence = s.sequence)
    ∧ (∀ (norm : Normalizer) (s : EngineState) (seqs : List KeySeq),
      (unbindBatch norm s seqs).bindings ≠ [] →
      (unbindBatch norm s seqs).sequence = s.sequence)
    ∧ (∀ (norm : Normalizer) (s : EngineState)
        (kbs : List (KeySeq × Command)) (k : KeySeq),
      (bindBatch norm s kbs).1.bindings ≠ [] →
      (k ∈ (bindBatch norm s kbs).1.filtered ↔
        k ∈ s.filtered ∨ (startsWithKey k s.sequence = true
          ∧ ∃ p ∈ kbs, norm p.1 = NormResult.ok k)))
    ∧ (∀ (norm : Normalizer) (s : EngineState) (seqs : List KeySeq)
        (k : KeySeq),
      (unbindBatch norm s seqs).bindings ≠ [] →
      (k ∈ (unbindBatch norm s seqs).filtered ↔
        k ∈ s.filtered ∧ ¬∃ q ∈ seqs, norm q = NormResult.ok k)) := by
  refine ⟨fun s => rfl, ?_, ?_, ?_, ?_⟩
  · intro norm s kbs h
    have hb : (bindLoop norm s [] kbs).1.bindings ≠ [] := by
      intro hc
      apply h
      show (emitChange (bindLoop norm s [] kbs).1).bindings = []
      rw [emitChange_bindings, hc]
    show (emitChange (bindLoop norm s [] kbs).1).sequence = s.sequence
    rw [emitChange_of_ne _ hb]
    exact bindLoop_sequence norm kbs s []
  · intro norm s seqs h
    have hb : (unbindLoop norm s seqs).bindings ≠ [] := by
      intro hc
      apply h
      show (emitChange (unbindLoop norm s seqs)).bindings = []
      rw [emitChange_bindings, hc]
    show (emitChange (unbindLoop norm s seqs)).sequence = s.sequence
    rw [emitChange_of_ne _ hb]
    exact unbindLoop_sequence norm seqs s
  · intro norm s kbs k h
    have hb : (bindLoop norm s [] kbs).1.bindings ≠ [] := by
      intro hc
      apply h
      show (emitChange (bindLoop norm s [] kbs).1).bindings = []
      rw [emitChange_bindings, hc]
    show k ∈ (emitChange (bindLoop norm s [] kbs).1).filtered ↔ _
    rw [emitChange_of_ne _ hb]
    exact bindLoop_filtered norm kbs s [] k
  · intro norm s seqs k h
    have hb : (unbindLoop norm s seqs).bindings ≠ [] := by
      intro hc
      apply h
      show (emitChange (unbindLoop norm s seqs)).bindings = []
      rw [emitChange_bindings, hc]
    show k ∈ (emitChange (unbindLoop norm s seqs)).filtered ↔ _
    rw [emitChange_of_ne _ hb]
    exact unbindLoop_filtered norm seqs s k

/-- Witness for C5 (amended): `reset()` on the accumulating state forces
the initial state, while binding `"x"` there keeps the buffer `"d"`, and
the new key `"x"` (which does not extend the buffer) joins the table but
not the candidate set. -/
theorem tableMutationReconciliation_witness :
    resetTable sAfterD = ⟨[], [], none, [], none, sAfterD.flushInterval⟩
    ∧ (bindBatch normToy sAfterD [(['x'], cmdX)]).1.sequence =
        sAfterD.sequence
    ∧ (['x'] ∈ (bindBatch normToy sAfterD [(['x'], cmdX)]).1.filtered ↔
        ['x'] ∈ sAfterD.filtered ∨ (startsWithKey ['x'] sAfterD.sequence = true
          ∧ ∃ p ∈ [(['x'], cmdX)], normToy p.1 = NormResult.ok ['x'])) :=
  ⟨tableMutationReconciliation.1 sAfterD,
   tableMutationReconciliation.2.1 normToy sAfterD [(['x'], cmdX)]
     (by decide),
   tableMutationReconciliation.2.2.2.1 normToy sAfterD
     [(['x'], cmdX)] ['x'] (by decide)⟩

/-- Counterexample to C5 as stated: `bind` on a non-empty table does not
clear the Current Sequence Buffer — binding `"x"` while the buffer holds
`"d"` leaves the buffer `"d"`, contradicting "after every call to bind …
the Current Sequence Buffer is empty". -/
theorem tableMutationReconciliation_cex :
    (bindBatch normToy sAfterD [(['x'], cmdX)]).1.sequence = ['d']
    ∧ ['d'] ≠ ([] : KeySeq) :=
  ⟨by decide, by decide⟩

/-! ### Feeding a bound sequence from the idle state -/

theorem filterPass_sub (B : List (KeySeq × Command)) (q : KeySeq)
    (l : List KeySeq) (h : ∀ k ∈ l, k ∈ keysOf B) :
    filterPass B q l = l.filter (fun k => startsWithKey k q) := by
  unfold filterPass
  apply List.filter_congr
  intro k hk
  have hm : (lookupAssoc B k).isSome = true :=
    lookup_isSome_iff_mem.mpr (h k hk)
  rw [hm]
  cases startsWithKey k q <;> simp

theorem filter_sw_nil (l : List KeySeq) :
    l.filter (fun k => startsWithKey k []) = l := by
  induction l with
  | nil => rfl
  | cons a l ih => simp [List.filter_cons, startsWithKey, ih]

theorem filter_sw_absorb (keys : List KeySeq) (b t : KeySeq) :
    (keys.filter (fun k => startsWithKey k b)).filter
        (fun k => startsWithKey k (b ++ t)) =
      keys.filter (fun k => startsWithKey k (b ++ t)) := by
  induction keys with
  | nil => rfl
  | cons a keys ih =>
    by_cases h : startsWithKey a (b ++ t) = true
    · have hb : startsWithKey a b = true := startsWithKey_of_append b t h
      simp only [List.filter_cons, hb, h, if_pos]
      rw [ih]
    · have h' : startsWithKey a (b ++ t) = false := by
        revert h; cases startsWithKey a (b ++ t) <;> simp
      by_cases hb : startsWithKey a b = true
      · simp only [List.filter_cons, hb, h', if_pos]
        simpa using ih
      · have hb' : startsWithKey a b = false := by
          revert hb; cases startsWithKey a b <;> simp
        simp only [List.filter_cons, hb', h']
        simpa using ih

theorem filter_eq_singleton {α : Type} (l : List α) (p : α → Bool) (a : α)
    (hnd : l.Nodup) (ha : a ∈ l) (hpa : p a = true)
    (hother : ∀ x ∈ l, p x = true → x = a) :
    l.filter p = [a] := by
  induction l with
  | nil => exact absurd ha (List.not_mem_nil _)
  | cons x l ih =>
    have hx : x ∉ l := (List.nodup_cons.mp hnd).1
    have hndl : l.Nodup := (List.nodup_cons.mp hnd).2
    by_cases hpx : p x = true
    · have hxa : x = a := hother x (List.mem_cons_self _ _) hpx
      have hfl : l.filter p = [] := by
        apply List.filter_eq_nil_iff.mpr
        intro y hy hpy
        have : y = a := hother y (List.mem_cons_of_mem _ hy) hpy
        exact hx ((this.trans hxa.symm) ▸ hy)
      rw [List.filter_cons, if_pos hpx, hfl, hxa]
    · have hax : a ≠ x := fun hc => hpx (hc ▸ hpa)
      have hal : a ∈ l := by
        rcases List.mem_cons.mp ha with h | h
        · exact absurd h hax
        · exact h
      rw [List.filter_cons, if_neg hpx]
      exact ih hndl hal (fun y hy hpy => hother y (List.mem_cons_of_mem _ hy) hpy)

theorem two_le_length_of_two_mem {α : Type} (l : List α) (a b : α)
    (ha : a ∈ l) (hb : b ∈ l) (hab : a ≠ b) : 2 ≤ l.length := by
  cases l with
  | nil => exact absurd ha (List.not_mem_nil _)
  | cons x l =>
    cases l with
    | nil =>
      have ha' : a = x := List.mem_singleton.mp ha
      have hb' : b = x := List.mem_singleton.mp hb
      exact absurd (ha'.trans hb'.symm) hab
    | cons y l =>
      simp only [List.length_cons]
      omega

theorem feed_single_run (B : List (KeySeq × Command)) (S : KeySeq)
    (C : Command) (hnd : (keysOf B).Nodup) (hSC : lookupAssoc B S = some C)
    (hmax : ∀ k ∈ keysOf B, startsWithKey k S = true → k = S) :
    ∀ (ts : List KeySeq) (bdone : KeySeq)
      (pb : Option (Command × KeyboardEvent)) (tm : Option PendingTimer)
      (fi : Nat),
      ts ≠ [] → (∀ t ∈ ts, t ≠ []) → S = bdone ++ joinAll ts →
      (feedTokens
        ⟨B, bdone, pb,
          (keysOf B).filter (fun k => startsWithKey k bdone), tm, fi⟩
        (ts.map mkEvent)).1 = ⟨B, [], none, keysOf B, none, fi⟩
      ∧ ((feedTokens
        ⟨B, bdone, pb,
          (keysOf B).filter (fun k => startsWithKey k bdone), tm, fi⟩
        (ts.map mkEvent)).2.invoked.map (fun p => p.1)) = [C] := by
  intro ts
  induction ts with
  | nil =>
    intro bdone pb tm fi hne
    exact absurd rfl hne
  | cons t tl ih =>
    intro bdone pb tm fi hne htok hjoin
    have ht_ne : t ≠ [] := htok t (List.mem_cons_self _ _)
    have hsub : ∀ k ∈ (keysOf B).filter (fun k => startsWithKey k bdone),
        k ∈ keysOf B := fun k hk => (List.mem_filter.mp hk).1
    have hSmem : S ∈ keysOf B := mem_keys_of_lookup hSC
    have hsurv : turnSurvivors
        ⟨B, bdone, pb,
          (keysOf B).filter (fun k => startsWithKey k bdone), tm, fi⟩
        (mkEvent t) =
        (keysOf B).filter (fun k => startsWithKey k (bdone ++ t)) := by
      show filterPass B (bdone ++ t)
          ((keysOf B).filter (fun k => startsWithKey k bdone)) = _
      rw [filterPass_sub B (bdone ++ t) _ hsub, filter_sw_absorb]
    cases tl with
    | nil =>
      have hSeq : bdone ++ t = S := by
        rw [hjoin]
        show bdone ++ t = bdone ++ (t ++ joinAll [])
        rw [show joinAll ([] : List KeySeq) = [] from rfl, List.append_nil]
      have hSblock : S ∈ (keysOf B).filter
          (fun k => startsWithKey k bdone) := by
        apply List.mem_filter.mpr
        refine ⟨hSmem, ?_⟩
        rw [← hSeq]
        exact startsWithKey_append_left bdone t
      have hsurv1 : turnSurvivors
          ⟨B, bdone, pb,
            (keysOf B).filter (fun k => startsWithKey k bdone), tm, fi⟩
          (mkEvent t) = [S] := by
        rw [hsurv, hSeq]
        exact filter_eq_singleton _ _ S hnd hSmem (startsWithKey_refl S)
          (fun x hx hpx => hmax x hx hpx)
      have hbest : turnBest
          ⟨B, bdone, pb,
            (keysOf B).filter (fun k => startsWithKey k bdone), tm, fi⟩
          (mkEvent t) = some C := by
        show exactMatch B (bdone ++ t)
            ((keysOf B).filter (fun k => startsWithKey k bdone)) = some C
        rw [hSeq]
        unfold exactMatch
        rw [if_pos hSblock, hSC]
      have hH : turnHeld
          ⟨B, bdone, pb,
            (keysOf B).filter (fun k => startsWithKey k bdone), tm, fi⟩
          (mkEvent t) = some (C, mkEvent t) := by
        unfold turnHeld
        rw [hsurv1, hbest]
        rfl
      have hrun : handleKeydown
          ⟨B, bdone, pb,
            (keysOf B).filter (fun k => startsWithKey k bdone), tm, fi⟩
          (mkEvent t) =
          (backToInitial
            ⟨B, bdone, pb,
              (keysOf B).filter (fun k => startsWithKey k bdone), tm, fi⟩,
           invokeEff C (mkEvent t)) :=
        hk_run_one 1 _ (mkEvent t) C (mkEvent t) rfl ht_ne rfl hH
          (by rw [hsurv1]; rfl)
      constructor
      · show (feedTokens _ [mkEvent t]).1 = _
        simp only [feedTokens]
        rw [hrun]
        rfl
      · show ((feedTokens _ [mkEvent t]).2.invoked.map (fun p => p.1)) = _
        simp only [feedTokens]
        rw [hrun]
        simp [Effects.append, emptyEffects, invokeEff]
    | cons t2 ts2 =>
      have htl_ne : (t2 :: ts2) ≠ ([] : List KeySeq) := by
        intro hc
        exact List.noConfusion hc
      have hjtl_ne : joinAll (t2 :: ts2) ≠ [] :=
        joinAll_ne_nil htl_ne (fun x hx => htok x (List.mem_cons_of_mem _ hx))
      have hS2 : S = (bdone ++ t) ++ joinAll (t2 :: ts2) := by
        rw [hjoin]
        show bdone ++ (t ++ joinAll (t2 :: ts2)) = _
        rw [List.append_assoc]
      have hSper : S ∈ (keysOf B).filter
          (fun k => startsWithKey k (bdone ++ t)) := by
        apply List.mem_filter.mpr
        refine ⟨hSmem, ?_⟩
        rw [hS2]
        exact startsWithKey_append_left _ _
      have hpos : 0 < (turnSurvivors
          ⟨B, bdone, pb,
            (keysOf B).filter (fun k => startsWithKey k bdone), tm, fi⟩
          (mkEvent t)).length := by
        rw [hsurv]
        exact List.length_pos.mpr (List.ne_nil_of_mem hSper)
      have hSne : S ≠ bdone ++ t := by
        rw [hS2]
        exact append_ne_self hjtl_ne
      have harm : handleKeydown
          ⟨B, bdone, pb,
            (keysOf B).filter (fun k => startsWithKey k bdone), tm, fi⟩
          (mkEvent t) =
          (armState (stepState
            ⟨B, bdone, pb,
              (keysOf B).filter (fun k => startsWithKey k bdone), tm, fi⟩
            (mkEvent t)), armEff) := by
        cases hlook : lookupAssoc B (bdone ++ t) with
        | none =>
          have hbest : turnBest
              ⟨B, bdone, pb,
                (keysOf B).filter (fun k => startsWithKey k bdone), tm, fi⟩
              (mkEvent t) = none := by
            show exactMatch B (bdone ++ t)
                ((keysOf B).filter (fun k => startsWithKey k bdone)) = none
            unfold exactMatch
            rw [hlook]
            exact ite_self none
          have hH : turnHeld
              ⟨B, bdone, pb,
                (keysOf B).filter (fun k => startsWithKey k bdone), tm, fi⟩
              (mkEvent t) = none := by
            unfold turnHeld
            rw [if_pos hpos, hbest]
            rfl
          exact hk_arm_none 1 _ (mkEvent t) rfl ht_ne rfl hH
            (Nat.pos_iff_ne_zero.mp hpos)
        | some c' =>
          have hq'mem : (bdone ++ t) ∈ keysOf B := mem_keys_of_lookup hlook
          have hq'block : (bdone ++ t) ∈ (keysOf B).filter
              (fun k => startsWithKey k bdone) := by
            apply List.mem_filter.mpr
            exact ⟨hq'mem, startsWithKey_append_left bdone t⟩
          have hbest : turnBest
              ⟨B, bdone, pb,
                (keysOf B).filter (fun k => startsWithKey k bdone), tm, fi⟩
              (mkEvent t) = some c' := by
            show exactMatch B (bdone ++ t)
                ((keysOf B).filter (fun k => startsWithKey k bdone)) = some c'
            unfold exactMatch
            rw [if_pos hq'block, hlook]
          have hH : turnHeld
              ⟨B, bdone, pb,
                (keysOf B).filter (fun k => startsWithKey k bdone), tm, fi⟩
              (mkEvent t) = some (c', mkEvent t) := by
            unfold turnHeld
            rw [if_pos hpos, hbest]
            rfl
          have hq'surv : (bdone ++ t) ∈ (keysOf B).filter
              (fun k => startsWithKey k (bdone ++ t)) := by
            apply List.mem_filter.mpr
            exact ⟨hq'mem, startsWithKey_refl _⟩
          have hge : 2 ≤ (turnSurvivors
              ⟨B, bdone, pb,
                (keysOf B).filter (fun k => startsWithKey k bdone), tm, fi⟩
              (mkEvent t)).length := by
            rw [hsurv]
            exact two_le_length_of_two_mem _ (bdone ++ t) S hq'surv hSper
              (fun hc => hSne hc.symm)
          exact hk_arm_some 1 _ (mkEvent t) c' (mkEvent t) rfl ht_ne rfl hH hge
      have hnewstate : armState (stepState
          ⟨B, bdone, pb,
            (keysOf B).filter (fun k => startsWithKey k bdone), tm, fi⟩
          (mkEvent t)) =
          ⟨B, bdone ++ t,
            turnHeld
              ⟨B, bdone, pb,
                (keysOf B).filter (fun k => startsWithKey k bdone), tm, fi⟩
              (mkEvent t),
            (keysOf B).filter (fun k => startsWithKey k (bdone ++ t)),
            some ⟨armAction (turnHeld
              ⟨B, bdone, pb,
                (keysOf B).filter (fun k => startsWithKey k bdone), tm, fi⟩
              (mkEvent t)), fi⟩, fi⟩ := by
        rw [show armState (stepState
            ⟨B, bdone, pb,
              (keysOf B).filter (fun k => startsWithKey k bdone), tm, fi⟩
            (mkEvent t)) =
          ⟨B, bdone ++ t,
            turnHeld
              ⟨B, bdone, pb,
                (keysOf B).filter (fun k => startsWithKey k bdone), tm, fi⟩
              (mkEvent t),
            turnSurvivors
              ⟨B, bdone, pb,
                (keysOf B).filter (fun k => startsWithKey k bdone), tm, fi⟩
              (mkEvent t),
            some ⟨armAction (turnHeld
              ⟨B, bdone, pb,
                (keysOf B).filter (fun k => startsWithKey k bdone), tm, fi⟩
              (mkEvent t)), fi⟩, fi⟩ from rfl]
        rw [hsurv]
      obtain ⟨hfin, hinv⟩ := ih (bdone ++ t)
        (turnHeld
          ⟨B, bdone, pb,
            (keysOf B).filter (fun k => startsWithKey k bdone), tm, fi⟩
          (mkEvent t))
        (some ⟨armAction (turnHeld
          ⟨B, bdone, pb,
            (keysOf B).filter (fun k => startsWithKey k bdone), tm, fi⟩
          (mkEvent t)), fi⟩) fi htl_ne
        (fun x hx => htok x (List.mem_cons_of_mem _ hx)) hS2
      constructor
      · show (feedTokens _ (mkEvent t :: (t2 :: ts2).map mkEvent)).1 = _
        simp only [feedTokens]
        rw [harm, hnewstate]
        exact hfin
      · show ((feedTokens _
            (mkEvent t :: (t2 :: ts2).map mkEvent)).2.invoked.map
            (fun p => p.1)) = _
        simp only [feedTokens]
        rw [harm, hnewstate]
        show (armEff.invoked ++ _).map (fun p => p.1) = _
        rw [show armEff.invoked = [] from rfl, List.nil_append]
        exact hinv

/-- C2 (amended): after `bind(S, C)` succeeds, feeding exactly the key
tokens of S from the Idle state — provided no other bound sequence has
S's canonical form as a proper prefix — invokes C exactly once and leaves
the Current Sequence Buffer empty (the engine fully reset).  The side
condition is forced by the counterexample: when a longer binding extends
S, the exact match is deferred behind the flush timer instead. -/
theorem bindThenFeedInvokesOnce (B : List (KeySeq × Command)) (S : KeySeq)
    (C : Command) (ts : List KeySeq)
    (pb : Option (Command × KeyboardEvent)) (tm : Option PendingTimer)
    (fi : Nat)
    (hnd : (keysOf B).Nodup) (hSC : lookupAssoc B S = some C)
    (hmax : ∀ k ∈ keysOf B, startsWithKey k S = true → k = S)
    (hne : ts ≠ []) (htok : ∀ t ∈ ts, t ≠ []) (hjoin : S = joinAll ts) :
    (feedTokens ⟨B, [], pb, keysOf B, tm, fi⟩ (ts.map mkEvent)).1 =
      ⟨B, [], none, keysOf B, none, fi⟩
    ∧ ((feedTokens ⟨B, [], pb, keysOf B, tm, fi⟩
        (ts.map mkEvent)).2.invoked.map (fun p => p.1)) = [C] := by
  have h := feed_single_run B S C hnd hSC hmax ts [] pb tm fi hne htok
    (by rw [List.nil_append]; exact hjoin)
  rw [filter_sw_nil] at h
  exact h

/-- Witness for C2 (amended): with `"d"` and `"dd"` bound, feeding the two
tokens of `"dd"` (no other binding extends `"dd"`) invokes `"dd"`'s
command exactly once and resets the engine. -/
theorem bindThenFeedInvokesOnce_witness :
    (feedTokens ⟨[(['d'], cmdD), (['d', 'd'], cmdDD)], [], none,
        keysOf [(['d'], cmdD), (['d', 'd'], cmdDD)], none, 1000⟩
      ([['d'], ['d']].map mkEvent)).1 =
      ⟨[(['d'], cmdD), (['d', 'd'], cmdDD)], [], none,
        keysOf [(['d'], cmdD), (['d', 'd'], cmdDD)], none, 1000⟩
    ∧ ((feedTokens ⟨[(['d'], cmdD), (['d', 'd'], cmdDD)], [], none,
        keysOf [(['d'], cmdD), (['d', 'd'], cmdDD)], none, 1000⟩
      ([['d'], ['d']].map mkEvent)).2.invoked.map (fun p => p.1)) = [cmdDD] :=
  bindThenFeedInvokesOnce [(['d'], cmdD), (['d', 'd'], cmdDD)] ['d', 'd']
    cmdDD [['d'], ['d']] none none 1000 (by decide) (by decide) (by decide)
    (by decide) (by decide) (by decide)

/-- Counterexample to C2 as stated: with `"d"` and `"dd"` both bound (both
binds succeeded), feeding exactly the tokens of `"d"` — with no other
input interleaved — invokes nothing at all (the decision is deferred to
the flush timer) and leaves the buffer `"d"`, not empty. -/
theorem bindThenFeedInvokesOnce_cex :
    (feedTokens sBoundDDd [evD]).2.invoked = []
    ∧ (feedTokens sBoundDDd [evD]).1.sequence = ['d'] :=
  ⟨by decide, by decide⟩

end ScrapBindings
